import Mathlib

/-!
Verification of the MVV_Analytics transit reachability core.

This file gives a shallow embedding of the two core source files of the
repository, `backend/graph/graph_builder.py` and `backend/graph/reachability.py`,
and proves or refutes the frozen claims about them.

Modelling conventions:
- stop identifiers are `Nat` (Python uses strings; only equality and a total
  order for heap tie-breaking are ever used, so the encoding is faithful);
- clock strings are modelled as parsed `(hours, minutes, seconds)` triples,
  with `none` standing for a missing (NaN) value, since the Python code only
  ever splits on `:` and converts the parts with `int`;
- Python's `heapq` is modelled as a list together with `popMin`, which removes
  the lexicographically least `(arrival_time, stop_id, num_transfers)` tuple,
  exactly what `heapq.heappop` returns;
- the Python `while pq:` loop is modelled with an explicit fuel parameter;
  `fuelBound` is a safe upper bound on the number of iterations (each popped
  entry was pushed; pushes happen only when a stop is newly explored, at most
  once per edge, and at most `edges+1` stops are ever explored);
- the float `round(travel_time_sec / 60.0, 1)` is modelled exactly as tenths
  of a minute, `(sec * 10 + 30) / 60` in integer arithmetic;
- Python dicts are insertion-ordered association lists; updating an existing
  key keeps its position, which matters because the final sort is stable;
- `nx.DiGraph` keeps a single edge per ordered node pair: `add_edge` on an
  existing pair overwrites the edge attributes.  This is modelled literally
  by `addEdgeDiGraph`;
- the search is embedded twice.  `calculate_reachability` models the run on
  well-keyed edge records (every record carries the transit keys, the shape
  for which the DiGraph/MultiGraph dispatch of reachability.py lines 108-114
  selects the single-edge branch); `calculate_reachability_digraph` models
  the run on the attribute dictionaries the builder's `nx.DiGraph` actually
  stores, where a transfer-only pair (a dict without a departure_time key,
  produced for bare transfer rules) sends the dispatch to the multi-edge
  branch, which iterates the dict's raw values and crashes with
  AttributeError at the first `edge.get` call (line 121); the crash is
  modelled as an `Except.error` aborting the whole call.
-/

namespace MVV

/-! ## Data model of the search graph (reachability.py's view of a graph) -/

/-- A well-keyed edge attribute record as read by `calculate_reachability`:
`transfer` (absent on transit edges, modelled as `false`), `departure_time`,
`arrival_time`, `duration` (used by the search only on transfer edges).
Every record of this type carries the transit keys, so it represents the
dictionaries for which the dispatch of reachability.py lines 108-114 takes
a working branch.  The builder's transfer-only DiGraph dictionaries, which
lack `departure_time` and make the search crash, are not representable
here; they are modelled by `DiEdgeAttrs` and `calculate_reachability_digraph`
below. -/
structure EdgeData where
  transfer : Bool
  departure_time : Nat
  arrival_time : Nat
  duration : Nat
deriving Repr, DecidableEq

/-- One directed edge of the loaded graph. -/
structure TransitEdge where
  src : Nat
  dst : Nat
  data : EdgeData
deriving Repr, DecidableEq

/-- A loaded per-day-type graph: node list plus (possibly parallel) directed
edges, i.e. the interface `calculate_reachability` actually consumes
(`G.nodes`, `G.neighbors`, `G.get_edge_data`). -/
structure Graph where
  nodes : List Nat
  edges : List TransitEdge
deriving Repr, DecidableEq

/-- Distinct successors of `s` in first-occurrence order, matching networkx
adjacency iteration (`G.neighbors`). -/
def dedupFirstAux : List Nat → List Nat → List Nat
  | _, [] => []
  | seen, x :: xs =>
    if x ∈ seen then dedupFirstAux seen xs else x :: dedupFirstAux (x :: seen) xs

def neighbors (G : Graph) (s : Nat) : List Nat :=
  dedupFirstAux [] ((G.edges.filter (fun e => decide (e.src = s))).map (fun e => e.dst))

/-- All edge attribute records between an ordered stop pair
(`G.get_edge_data(current_stop, neighbor)`, lines 106-114 of reachability.py:
the code iterates over all parallel edges when there are several).  Because
every `EdgeData` is well-keyed, this models the dispatch of lines 108-114
only on records that do not crash it; the crashing transfer-only case is
modelled by `edgeDataBetween` and `relaxStepD` below. -/
def edgesBetween (G : Graph) (s n : Nat) : List EdgeData :=
  (G.edges.filter (fun e => decide (e.src = s) && decide (e.dst = n))).map (fun e => e.data)

/-! ## Time conversion (reachability.py lines 27-40) -/

/-- Convert an HH:MM pair to seconds since midnight
(`ReachabilityCalculator.time_to_seconds`). -/
def time_to_seconds_hm (t : Nat × Nat) : Nat :=
  t.1 * 3600 + t.2 * 60

/-! ## The inner relaxation of the time-dependent Dijkstra loop
(reachability.py lines 116-159) -/

/-- Resulting `(arrival_time, num_transfers)` of taking edge `e` at
`current_time`, or `none` when the edge is not usable (a transit edge whose
departure, after the past-midnight wrap of lines 137-139, is earlier than the
current time).  Transfer edges (lines 121-129) are always usable and increment
the transfer count; transit edges (lines 131-152) increment it exactly when
the wait exceeds 120 seconds. -/
def edgeCandidate (current_time num_transfers : Nat) (e : EdgeData) : Option (Nat × Nat) :=
  if e.transfer then
    some (current_time + e.duration, num_transfers + 1)
  else
    let dep_time :=
      if e.departure_time < current_time - 24 * 3600 then e.departure_time + 24 * 3600
      else e.departure_time
    let arr_time :=
      if e.departure_time < current_time - 24 * 3600 then e.arrival_time + 24 * 3600
      else e.arrival_time
    if current_time ≤ dep_time then
      some (arr_time, num_transfers + (if 120 < dep_time - current_time then 1 else 0))
    else
      none

/-- Keep the strictly earlier arrival (`if best_arrival is None or
arrival_time < best_arrival`, lines 127 and 150): ties keep the first seen. -/
def updateBest (best : Option (Nat × Nat)) (arrival new_transfers : Nat) : Option (Nat × Nat) :=
  match best with
  | none => some (arrival, new_transfers)
  | some (ba, bt) => if arrival < ba then some (arrival, new_transfers) else some (ba, bt)

/-- One step of the `for edge in edges` loop: form the candidate, discard it
when it exceeds the budget (`arrival - departure_time_sec <= max_time_sec`,
lines 126 and 144; Python's possibly-negative difference agrees with Nat
truncated subtraction because the right side is nonnegative), else fold it
into the best option for this neighbor. -/
def considerEdge (departure_time_sec max_time_sec current_time num_transfers : Nat)
    (best : Option (Nat × Nat)) (e : EdgeData) : Option (Nat × Nat) :=
  match edgeCandidate current_time num_transfers e with
  | none => best
  | some (a, t) => if a - departure_time_sec ≤ max_time_sec then updateBest best a t else best

/-- Best admissible `(arrival_time, num_transfers)` over all parallel edges to
one neighbor (lines 116-152). -/
def bestConnection (departure_time_sec max_time_sec current_time num_transfers : Nat)
    (edges : List EdgeData) : Option (Nat × Nat) :=
  edges.foldl (considerEdge departure_time_sec max_time_sec current_time num_transfers) none

/-! ## The earliest-arrival map (a Python dict: insertion ordered) -/

/-- Entries are `(stop_id, arrival_time, num_transfers)`. -/
def lookupStop : List (Nat × Nat × Nat) → Nat → Option (Nat × Nat)
  | [], _ => none
  | (k, v) :: rest, s => if k = s then some v else lookupStop rest s

/-- Dict assignment: an existing key keeps its position, a new key is
appended. -/
def updateStop : List (Nat × Nat × Nat) → Nat → Nat × Nat → List (Nat × Nat × Nat)
  | [], s, v => [(s, v)]
  | (k, w) :: rest, s, v =>
    if k = s then (s, v) :: rest else (k, w) :: updateStop rest s v

/-- Relax one neighbor (lines 154-159): when a best admissible connection
exists and improves on the recorded arrival (or none is recorded), update the
map and push onto the queue. -/
def relaxNeighbor (G : Graph)
    (departure_time_sec max_time_sec current_time current_stop num_transfers : Nat)
    (st : List (Nat × Nat × Nat) × List (Nat × Nat × Nat)) (neighbor : Nat) :
    List (Nat × Nat × Nat) × List (Nat × Nat × Nat) :=
  match bestConnection departure_time_sec max_time_sec current_time num_transfers
      (edgesBetween G current_stop neighbor) with
  | none => st
  | some (best_arrival, best_transfers) =>
    match lookupStop st.1 neighbor with
    | none =>
      (updateStop st.1 neighbor (best_arrival, best_transfers),
        st.2 ++ [(best_arrival, neighbor, best_transfers)])
    | some (ea, _) =>
      if best_arrival < ea then
        (updateStop st.1 neighbor (best_arrival, best_transfers),
          st.2 ++ [(best_arrival, neighbor, best_transfers)])
      else st

/-! ## The priority queue -/

/-- Lexicographic order on `(arrival_time, stop_id, num_transfers)` heap
tuples: Python compares tuples lexicographically. -/
def pqLe (x y : Nat × Nat × Nat) : Prop :=
  x.1 < y.1 ∨ (x.1 = y.1 ∧ (x.2.1 < y.2.1 ∨ (x.2.1 = y.2.1 ∧ x.2.2 ≤ y.2.2)))

instance (x y : Nat × Nat × Nat) : Decidable (pqLe x y) := by
  unfold pqLe; exact inferInstance

/-- Remove and return the least tuple: the semantics of `heapq.heappop`. -/
def popMin : List (Nat × Nat × Nat) → Option ((Nat × Nat × Nat) × List (Nat × Nat × Nat))
  | [] => none
  | x :: xs =>
    match popMin xs with
    | none => some (x, [])
    | some (m, r) => if pqLe x m then some (x, xs) else some (m, x :: r)

/-! ## The main search loop (reachability.py lines 79-159) -/

structure SearchState where
  earliest_arrival : List (Nat × Nat × Nat)
  pq : List (Nat × Nat × Nat)
  explored : List Nat
deriving Repr

/-- The `while pq:` loop.  Pop the minimum entry; skip settled stops; mark the
stop settled; skip expansion past the budget (lines 99-100); otherwise relax
every neighbor.  Returns the final earliest-arrival map. -/
def dijkstraLoop (G : Graph) (departure_time_sec max_time_sec : Nat) :
    Nat → SearchState → List (Nat × Nat × Nat)
  | 0, st => st.earliest_arrival
  | fuel + 1, st =>
    match popMin st.pq with
    | none => st.earliest_arrival
    | some ((current_time, current_stop, num_transfers), rest) =>
      if current_stop ∈ st.explored then
        dijkstraLoop G departure_time_sec max_time_sec fuel
          { st with pq := rest }
      else
        if current_time - departure_time_sec > max_time_sec then
          dijkstraLoop G departure_time_sec max_time_sec fuel
            { st with pq := rest, explored := current_stop :: st.explored }
        else
          let next := (neighbors G current_stop).foldl
            (relaxNeighbor G departure_time_sec max_time_sec current_time current_stop
              num_transfers)
            (st.earliest_arrival, rest)
          dijkstraLoop G departure_time_sec max_time_sec fuel
            ⟨next.1, next.2, current_stop :: st.explored⟩

/-- Fuel that always exhausts the queue: every iteration pops one entry; an
entry is pushed only while newly exploring a stop (at most `edges+1` stops
ever appear) and each such exploration pushes at most `edges` entries. -/
def fuelBound (G : Graph) : Nat :=
  (G.edges.length + 1) * (G.edges.length + 1) + 1

/-! ## Result construction (reachability.py lines 161-185) -/

/-- One record of the returned list.  `travel_time_tenths` is
`round(travel_time_sec / 60.0, 1)` in tenths of a minute, so `10.0` minutes is
`100`.  Stop name and coordinates are node attributes copied verbatim and are
omitted from the model. -/
structure ResultEntry where
  stop_id : Nat
  travel_time_tenths : Nat
  num_transfers : Nat
deriving Repr, DecidableEq

/-- Tenths of a minute for `sec` seconds, rounding to nearest with halves
rounded up.  Python's `round(sec / 60.0, 1)` rounds the nearest binary
double half-even, which can differ at exact half-way seconds (`sec % 6 = 3`,
e.g. 15 s is 0.2 in Python but 0.3 here); every concrete value appearing in
the claims is an exact multiple of a tenth, where both roundings agree. -/
def roundTenths (sec : Nat) : Nat := (sec * 10 + 30) / 60

/-- Build the result list from the final earliest-arrival map, excluding the
origin, in map (dict insertion) order. -/
def buildResults (final : List (Nat × Nat × Nat)) (origin_stop_id departure_time_sec : Nat) :
    List ResultEntry :=
  (final.filter (fun x => decide (x.1 ≠ origin_stop_id))).map
    (fun x => ⟨x.1, roundTenths (x.2.1 - departure_time_sec), x.2.2⟩)

/-- Stable ascending sort by travel time (`results.sort(key=...)`, line 183;
Python's sort is stable, as is insertion sort). -/
def sortResults (l : List ResultEntry) : List ResultEntry :=
  l.insertionSort (fun a b => a.travel_time_tenths ≤ b.travel_time_tenths)

/-- The embedding of `ReachabilityCalculator.calculate_reachability`.
`graphs` is the day-type → graph dictionary the calculator holds; exceptions
are modelled with `Except`. -/
def calculate_reachability (graphs : List (String × Graph)) (origin_stop_id : Nat)
    (departure_time : Nat × Nat) (max_time_minutes : Nat) (day_type : String) :
    Except String (List ResultEntry) :=
  match graphs.lookup day_type with
  | none => .error ("Invalid day_type: " ++ day_type)
  | some G =>
    if origin_stop_id ∈ G.nodes then
      let departure_time_sec := time_to_seconds_hm departure_time
      let max_time_sec := max_time_minutes * 60
      let final := dijkstraLoop G departure_time_sec max_time_sec (fuelBound G)
        ⟨[(origin_stop_id, departure_time_sec, 0)], [(departure_time_sec, origin_stop_id, 0)], []⟩
      .ok (sortResults (buildResults final origin_stop_id departure_time_sec))
    else
      .error "Stop not found"

/-! ## Timeline (reachability.py lines 187-234) -/

/-- Python's `range(start, stop, step)` for a positive step. -/
def pythonRange (start stop step : Nat) : List Nat :=
  (List.range ((stop - start + step - 1) / step)).map (fun k => start + k * step)

/-- The embedding of `calculate_reachability_timeline`: one full search, then
for each `step, 2*step, ...` in `range(time_step_minutes, max_time_minutes + 1,
time_step_minutes)` a frame with the stops whose travel time is within the
elapsed value. -/
def calculate_reachability_timeline (graphs : List (String × Graph)) (origin_stop_id : Nat)
    (departure_time : Nat × Nat) (max_time_minutes time_step_minutes : Nat) (day_type : String) :
    Except String (List (Nat × List ResultEntry)) :=
  (calculate_reachability graphs origin_stop_id departure_time max_time_minutes day_type).map
    (fun all_reachable =>
      (pythonRange time_step_minutes (max_time_minutes + 1) time_step_minutes).map
        (fun step =>
          (step, all_reachable.filter (fun stop => decide (stop.travel_time_tenths ≤ step * 10)))))

/-! ## Graph builder: service classification (graph_builder.py lines 91-142) -/

/-- One row of calendar.txt: the seven day flags (the GTFS integers compared
with `== 1` become booleans). -/
structure CalendarRow where
  monday : Bool
  tuesday : Bool
  wednesday : Bool
  thursday : Bool
  friday : Bool
  saturday : Bool
  sunday : Bool
deriving Repr, DecidableEq

/-- Day types a calendar row's service id is appended to
(`get_service_ids_by_day_type`, lines 104-135). -/
def classifyService (r : CalendarRow) : List String :=
  if r.monday && r.tuesday && r.wednesday && r.thursday && r.friday
      && !r.saturday && !r.sunday then
    ["weekday"]
  else if r.saturday && !r.sunday && !r.monday && !r.tuesday && !r.wednesday
      && !r.thursday && !r.friday then
    ["saturday"]
  else if r.sunday && !r.saturday && !r.monday && !r.tuesday && !r.wednesday
      && !r.thursday && !r.friday then
    ["sunday"]
  else
    (if r.monday || r.tuesday || r.wednesday || r.thursday || r.friday
      then ["weekday"] else []) ++
    (if r.saturday then ["saturday"] else []) ++
    (if r.sunday then ["sunday"] else [])

/-! ## Graph builder: edge construction (graph_builder.py lines 71-89 and
203-237) -/

/-- Parse result of `TransitGraphBuilder.time_to_seconds`: a missing (NaN)
clock string returns 0, otherwise the `HH:MM:SS` parts (which may exceed 24
hours) are combined.  The string is modelled by its parsed `(h, m, s)`
triple. -/
def time_to_seconds (t : Option (Nat × Nat × Nat)) : Nat :=
  match t with
  | none => 0
  | some (h, m, s) => h * 3600 + m * 60 + s

/-- One row of stop_times.txt for a trip, already ordered by stop_sequence. -/
structure StopVisit where
  stop_id : Nat
  arrival_time : Option (Nat × Nat × Nat)
  departure_time : Option (Nat × Nat × Nat)
deriving Repr, DecidableEq

/-- Attributes the builder stores on a trip-segment edge (lines 227-235).
`duration` is a Python int and can in principle be negative, hence `Int`. -/
structure TripEdgeAttrs where
  departure_time : Nat
  arrival_time : Nat
  duration : Int
  trip_id : Nat
deriving Repr, DecidableEq

/-- Edge attributes for one consecutive visit pair (lines 210-224): departure
from the earlier visit, arrival at the later one, add 24 hours to the arrival
when it is numerically smaller than the departure, duration is the
difference. -/
def buildSegmentAttrs (trip_id : Nat) (from_stop to_stop : StopVisit) : TripEdgeAttrs :=
  let departure_time := time_to_seconds from_stop.departure_time
  let arrival_time0 := time_to_seconds to_stop.arrival_time
  let arrival_time :=
    if arrival_time0 < departure_time then arrival_time0 + 24 * 3600 else arrival_time0
  ⟨departure_time, arrival_time, (arrival_time : Int) - (departure_time : Int), trip_id⟩

/-- The adjacency structure of `nx.DiGraph`: at most one edge per ordered
stop pair; `add_edge` on an existing pair overwrites its attributes in
place. -/
def addEdgeDiGraph (adj : List ((Nat × Nat) × TripEdgeAttrs)) (key : Nat × Nat)
    (d : TripEdgeAttrs) : List ((Nat × Nat) × TripEdgeAttrs) :=
  match adj with
  | [] => [(key, d)]
  | (k, w) :: rest =>
    if k = key then (key, d) :: rest else (k, w) :: addEdgeDiGraph rest key d

/-- The keyed edges a single trip contributes: one per consecutive visit
pair. -/
def tripSegments (trip_id : Nat) : List StopVisit → List ((Nat × Nat) × TripEdgeAttrs)
  | a :: b :: rest =>
    ((a.stop_id, b.stop_id), buildSegmentAttrs trip_id a b) :: tripSegments trip_id (b :: rest)
  | _ => []

/-- The transit part of `build_graph_for_day_type` (lines 203-237): fold all
trips' segments into the DiGraph adjacency via `G.add_edge`. -/
def buildTransitAdjacency (trips : List (Nat × List StopVisit)) :
    List ((Nat × Nat) × TripEdgeAttrs) :=
  trips.foldl
    (fun adj t => (tripSegments t.1 t.2).foldl (fun g kd => addEdgeDiGraph g kd.1 kd.2) adj)
    []

/-! ## Concrete scenario graphs used by the spec's testable properties -/

/-- Stops A=0, B=1, C=2; A→B departs 09:00:00 arrives 09:10:00; B→C departs
09:20:00 arrives 09:30:00. -/
def demoGraph : Graph :=
  { nodes := [0, 1, 2]
  , edges :=
      [ ⟨0, 1, ⟨false, 32400, 33000, 600⟩⟩
      , ⟨1, 2, ⟨false, 33600, 34200, 600⟩⟩ ] }

def demoGraphs : List (String × Graph) := [("weekday", demoGraph)]

/-! ## The builder's DiGraph representation of the search graph

`build_graph_for_day_type` returns an `nx.DiGraph`, which stores one
attribute dictionary per ordered stop pair.  Transit segments store
`departure_time`, `arrival_time`, `duration`, `trip_id`, `route_name`
(lines 227-235); bare transfer rules store only `transfer=True` and
`duration` (lines 256-261); a transfer rule added onto a pair that already
has a transit edge merges into the existing dictionary (networkx
`add_edge` updates the attribute dict), keeping `departure_time`.  The
dispatch of reachability.py lines 108-114 takes the single-edge branch
exactly when the dictionary carries `departure_time`; otherwise it iterates
the dictionary's raw values (for the builder's transfer-only pairs, the
nonempty list `[True, duration]`) and the first `edge.get` call at line 121
raises `AttributeError`, aborting the whole query. -/

/-- One DiGraph edge-attribute dictionary: `transit = some (departure_time,
arrival_time)` when the dictionary carries the transit keys, `none` for a
transfer-only dictionary; `transfer` is the `transfer=True` key (absent
modelled as `false`); `duration` is always present in builder output. -/
structure DiEdgeAttrs where
  transit : Option (Nat × Nat)
  transfer : Bool
  duration : Nat
deriving Repr, DecidableEq

structure DiEdge where
  src : Nat
  dst : Nat
  data : DiEdgeAttrs
deriving Repr, DecidableEq

/-- A builder-produced graph: node list plus one attribute record per
ordered pair (the builder's DiGraph guarantees at most one). -/
structure DiGraph where
  nodes : List Nat
  edges : List DiEdge
deriving Repr, DecidableEq

def neighborsD (G : DiGraph) (s : Nat) : List Nat :=
  dedupFirstAux [] ((G.edges.filter (fun e => decide (e.src = s))).map (fun e => e.dst))

/-- The attribute dictionary `G.get_edge_data(s, n)` of the single edge
between an ordered pair. -/
def edgeDataBetween (G : DiGraph) (s n : Nat) : Option DiEdgeAttrs :=
  ((G.edges.filter (fun e => decide (e.src = s) && decide (e.dst = n))).head?).map
    (fun e => e.data)

/-- Lines 108-159 for a single neighbor of a DiGraph: when the dictionary
carries `departure_time`, `edges = [edge_data]` and the single record is
processed exactly as in `considerEdge` (starting from `best_arrival =
None`), then the improvement check and push of lines 154-159 run; when it
does not, the code iterates the dictionary's raw values and crashes with
`AttributeError` at `edge.get` (line 121). -/
def relaxStepD (departure_time_sec max_time_sec current_time num_transfers neighbor : Nat)
    (d : DiEdgeAttrs) (st : List (Nat × Nat × Nat) × List (Nat × Nat × Nat)) :
    Except String (List (Nat × Nat × Nat) × List (Nat × Nat × Nat)) :=
  match d.transit with
  | none => .error "AttributeError"
  | some (dp, ar) =>
    match considerEdge departure_time_sec max_time_sec current_time num_transfers none
        ⟨d.transfer, dp, ar, d.duration⟩ with
    | none => .ok st
    | some (best_arrival, best_transfers) =>
      match lookupStop st.1 neighbor with
      | none =>
        .ok (updateStop st.1 neighbor (best_arrival, best_transfers),
          st.2 ++ [(best_arrival, neighbor, best_transfers)])
      | some (ea, _) =>
        if best_arrival < ea then
          .ok (updateStop st.1 neighbor (best_arrival, best_transfers),
            st.2 ++ [(best_arrival, neighbor, best_transfers)])
        else .ok st

/-- One neighbor of the `for neighbor in G.neighbors(...)` loop; a crash
raised earlier in the loop aborts everything after it. -/
def relaxNeighborD (G : DiGraph)
    (departure_time_sec max_time_sec current_time current_stop num_transfers : Nat)
    (st : Except String (List (Nat × Nat × Nat) × List (Nat × Nat × Nat))) (neighbor : Nat) :
    Except String (List (Nat × Nat × Nat) × List (Nat × Nat × Nat)) :=
  match st with
  | .error msg => .error msg
  | .ok st =>
    match edgeDataBetween G current_stop neighbor with
    | none => .ok st
    | some d =>
      relaxStepD departure_time_sec max_time_sec current_time num_transfers neighbor d st

/-- The `while pq:` loop over a builder DiGraph, with the AttributeError of
the transfer-only dispatch propagating out as an error. -/
def dijkstraLoopD (G : DiGraph) (departure_time_sec max_time_sec : Nat) :
    Nat → List (Nat × Nat × Nat) → List (Nat × Nat × Nat) → List Nat →
    Except String (List (Nat × Nat × Nat))
  | 0, earliest, _, _ => .ok earliest
  | fuel + 1, earliest, pq, explored =>
    match popMin pq with
    | none => .ok earliest
    | some ((current_time, current_stop, num_transfers), rest) =>
      if current_stop ∈ explored then
        dijkstraLoopD G departure_time_sec max_time_sec fuel earliest rest explored
      else
        if current_time - departure_time_sec > max_time_sec then
          dijkstraLoopD G departure_time_sec max_time_sec fuel earliest rest
            (current_stop :: explored)
        else
          match (neighborsD G current_stop).foldl
              (relaxNeighborD G departure_time_sec max_time_sec current_time current_stop
                num_transfers)
              (.ok (earliest, rest)) with
          | .error msg => .error msg
          | .ok next =>
            dijkstraLoopD G departure_time_sec max_time_sec fuel next.1 next.2
              (current_stop :: explored)

def fuelBoundD (G : DiGraph) : Nat :=
  (G.edges.length + 1) * (G.edges.length + 1) + 1

/-- The embedding of `calculate_reachability` on the graphs the builder
actually produces (one attribute dictionary per ordered pair, possibly
transfer-only): same ValueError checks, and the search's AttributeError on
a transfer-only dictionary propagates to the caller. -/
def calculate_reachability_digraph (graphs : List (String × DiGraph)) (origin_stop_id : Nat)
    (departure_time : Nat × Nat) (max_time_minutes : Nat) (day_type : String) :
    Except String (List ResultEntry) :=
  match graphs.lookup day_type with
  | none => .error ("Invalid day_type: " ++ day_type)
  | some G =>
    if origin_stop_id ∈ G.nodes then
      let departure_time_sec := time_to_seconds_hm departure_time
      let max_time_sec := max_time_minutes * 60
      match dijkstraLoopD G departure_time_sec max_time_sec (fuelBoundD G)
          [(origin_stop_id, departure_time_sec, 0)] [(departure_time_sec, origin_stop_id, 0)]
          [] with
      | .error msg => .error msg
      | .ok final => .ok (sortResults (buildResults final origin_stop_id departure_time_sec))
    else
      .error "Stop not found"

/-- Every attribute dictionary carries the `departure_time` key: true of
transit edges and of transfer rules merged onto an existing transit pair,
false exactly for the transfer-only pairs that crash the search. -/
def WellKeyed (G : DiGraph) : Prop :=
  ∀ e ∈ G.edges, e.data.transit.isSome = true

/-- Every edge takes strictly positive time: transfers have positive
duration, transit records arrive strictly after they depart. -/
def PosDurDiGraph (G : DiGraph) : Prop :=
  ∀ e ∈ G.edges, (e.data.transfer = true → 0 < e.data.duration) ∧
    (e.data.transfer = false →
      (e.data.transit.getD (0, 0)).1 < (e.data.transit.getD (0, 0)).2)

/-- The A/B/C scenario as a builder DiGraph. -/
def demoGraphD : DiGraph :=
  { nodes := [0, 1, 2]
  , edges :=
      [ ⟨0, 1, ⟨some (32400, 33000), false, 600⟩⟩
      , ⟨1, 2, ⟨some (33600, 34200), false, 600⟩⟩ ] }

def demoGraphsD : List (String × DiGraph) := [("weekday", demoGraphD)]

/-- A builder DiGraph holding one bare transfer rule A→B: the attribute
dictionary is only `transfer=True, duration=180`, with no departure_time. -/
def transferOnlyGraphD : DiGraph :=
  { nodes := [0, 1], edges := [ ⟨0, 1, ⟨none, true, 180⟩⟩ ] }

def transferOnlyGraphsD : List (String × DiGraph) := [("weekday", transferOnlyGraphD)]

/-- A builder DiGraph with a zero-duration transit edge at 09:00:00. -/
def zeroDurGraphD : DiGraph :=
  { nodes := [0, 1], edges := [ ⟨0, 1, ⟨some (32400, 32400), false, 0⟩⟩ ] }

def zeroDurGraphsD : List (String × DiGraph) := [("weekday", zeroDurGraphD)]

end MVV


namespace MVV

/-! ## Association-list lemmas for the earliest-arrival map -/

/-- Keys of the earliest-arrival map are pairwise distinct (true of every
Python dict). -/
def keysNodup (m : List (Nat × Nat × Nat)) : Prop := (m.map Prod.fst).Nodup

theorem lookupStop_mem {m : List (Nat × Nat × Nat)} {s : Nat} {v : Nat × Nat}
    (h : lookupStop m s = some v) : (s, v) ∈ m := by
  induction m with
  | nil => simp [lookupStop] at h
  | cons p rest ih =>
    obtain ⟨k, w⟩ := p
    by_cases hk : k = s
    · subst hk
      simp [lookupStop] at h
      subst h
      exact List.mem_cons_self _ _
    · simp only [lookupStop, if_neg hk] at h
      exact List.mem_cons_of_mem _ (ih h)

theorem mem_lookupStop {m : List (Nat × Nat × Nat)} {s : Nat} {v : Nat × Nat}
    (hm : keysNodup m) (h : (s, v) ∈ m) : lookupStop m s = some v := by
  induction m with
  | nil => simp at h
  | cons p rest ih =>
    obtain ⟨k, w⟩ := p
    have hm' : keysNodup rest := by
      simpa [keysNodup] using (List.nodup_cons.mp hm).2
    rcases List.mem_cons.mp h with h' | h'
    · cases h'
      simp [lookupStop]
    · by_cases hk : k = s
      · exfalso
        subst hk
        have : k ∈ rest.map Prod.fst := List.mem_map.mpr ⟨(k, v), h', rfl⟩
        exact (List.nodup_cons.mp hm).1 this
      · simp only [lookupStop, if_neg hk]
        exact ih hm' h'

theorem lookupStop_updateStop_self (m : List (Nat × Nat × Nat)) (s : Nat) (v : Nat × Nat) :
    lookupStop (updateStop m s v) s = some v := by
  induction m with
  | nil => simp [updateStop, lookupStop]
  | cons p rest ih =>
    obtain ⟨k, w⟩ := p
    by_cases hk : k = s
    · simp [updateStop, hk, lookupStop]
    · simp [updateStop, hk, lookupStop, ih]

theorem lookupStop_updateStop_ne {m : List (Nat × Nat × Nat)} {s k : Nat} (v : Nat × Nat)
    (h : k ≠ s) : lookupStop (updateStop m s v) k = lookupStop m k := by
  induction m with
  | nil =>
    have hsk : ¬ (s = k) := fun hh => h hh.symm
    simp [updateStop, lookupStop, hsk]
  | cons p rest ih =>
    obtain ⟨k', w⟩ := p
    by_cases hk : k' = s
    · subst hk
      have hsk : ¬ (k' = k) := fun hh => h hh.symm
      simp [updateStop, lookupStop, hsk]
    · by_cases hk2 : k' = k
      · subst hk2
        simp [updateStop, hk, lookupStop]
      · simp [updateStop, hk, lookupStop, hk2, ih]

theorem updateStop_keys_mem {m : List (Nat × Nat × Nat)} {s a : Nat} {v : Nat × Nat}
    (h : a ∈ (updateStop m s v).map Prod.fst) : a = s ∨ a ∈ m.map Prod.fst := by
  induction m with
  | nil => simpa [updateStop] using h
  | cons p rest ih =>
    obtain ⟨k, w⟩ := p
    by_cases hk : k = s
    · subst hk
      simpa [updateStop] using h
    · simp only [updateStop, if_neg hk, List.map_cons, List.mem_cons] at h
      rcases h with h | h
      · right; simp [h]
      · rcases ih h with h' | h'
        · exact Or.inl h'
        · right; simp [h']

theorem keysNodup_updateStop {m : List (Nat × Nat × Nat)} {s : Nat} {v : Nat × Nat}
    (hm : keysNodup m) : keysNodup (updateStop m s v) := by
  induction m with
  | nil => simp [keysNodup, updateStop]
  | cons p rest ih =>
    obtain ⟨k, w⟩ := p
    have hknotin := (List.nodup_cons.mp hm).1
    have hm' : keysNodup rest := by
      simpa [keysNodup] using (List.nodup_cons.mp hm).2
    by_cases hk : k = s
    · subst hk
      simpa [keysNodup, updateStop] using hm
    · simp only [keysNodup, updateStop, if_neg hk, List.map_cons]
      refine List.nodup_cons.mpr ⟨?_, ih hm'⟩
      intro hmem
      rcases updateStop_keys_mem hmem with h' | h'
      · exact hk h'
      · exact hknotin h'

/-! ## Priority-queue lemmas (popMin is the heapq pop) -/

theorem pqLe_def (a b c d e f : Nat) :
    pqLe (a, b, c) (d, e, f) ↔ (a < d ∨ (a = d ∧ (b < e ∨ (b = e ∧ c ≤ f)))) := Iff.rfl

theorem pqLe_refl (x : Nat × Nat × Nat) : pqLe x x := by
  obtain ⟨a, b, c⟩ := x
  rw [pqLe_def]; omega

theorem pqLe_total (x y : Nat × Nat × Nat) : pqLe x y ∨ pqLe y x := by
  obtain ⟨a, b, c⟩ := x; obtain ⟨d, e, f⟩ := y
  rw [pqLe_def, pqLe_def]; omega

theorem pqLe_trans {x y z : Nat × Nat × Nat} (h1 : pqLe x y) (h2 : pqLe y z) : pqLe x z := by
  obtain ⟨a, b, c⟩ := x; obtain ⟨d, e, f⟩ := y; obtain ⟨g, i, j⟩ := z
  rw [pqLe_def] at h1 h2 ⊢; omega

theorem pqLe_antisymm {x y : Nat × Nat × Nat} (h1 : pqLe x y) (h2 : pqLe y x) : x = y := by
  obtain ⟨a, b, c⟩ := x; obtain ⟨d, e, f⟩ := y
  rw [pqLe_def] at h1 h2
  have : a = d ∧ b = e ∧ c = f := by omega
  simp [this.1, this.2.1, this.2.2]

theorem not_pqLe_of_fst_lt {x y : Nat × Nat × Nat} (h : x.1 < y.1) : ¬ pqLe y x := by
  obtain ⟨a, b, c⟩ := x; obtain ⟨d, e, f⟩ := y
  simp only at h
  rw [pqLe_def]; omega

theorem popMin_eq_none {l : List (Nat × Nat × Nat)} : popMin l = none ↔ l = [] := by
  cases l with
  | nil => simp [popMin]
  | cons x xs =>
    simp only [popMin]
    cases popMin xs with
    | none => simp
    | some p =>
      obtain ⟨m, r⟩ := p
      by_cases h : pqLe x m <;> simp [h]

theorem popMin_perm {l : List (Nat × Nat × Nat)} {m : Nat × Nat × Nat}
    {r : List (Nat × Nat × Nat)} (h : popMin l = some (m, r)) : l.Perm (m :: r) := by
  induction l generalizing m r with
  | nil => simp [popMin] at h
  | cons x xs ih =>
    cases hx : popMin xs with
    | none =>
      have hxs : xs = [] := popMin_eq_none.mp hx
      simp only [popMin, hx, Option.some.injEq, Prod.mk.injEq] at h
      obtain ⟨h1, h2⟩ := h
      subst h1; subst h2; subst hxs
      exact List.Perm.refl _
    | some p =>
      obtain ⟨m', r'⟩ := p
      simp only [popMin, hx] at h
      by_cases hle : pqLe x m'
      · rw [if_pos hle] at h
        simp only [Option.some.injEq, Prod.mk.injEq] at h
        obtain ⟨h1, h2⟩ := h
        subst h1; subst h2
        exact List.Perm.refl _
      · rw [if_neg hle] at h
        simp only [Option.some.injEq, Prod.mk.injEq] at h
        obtain ⟨h1, h2⟩ := h
        subst h1; subst h2
        exact ((ih hx).cons x).trans (List.Perm.swap _ _ _)

theorem popMin_mem {l : List (Nat × Nat × Nat)} {m : Nat × Nat × Nat}
    {r : List (Nat × Nat × Nat)} (h : popMin l = some (m, r)) : m ∈ l :=
  (popMin_perm h).mem_iff.mpr (List.mem_cons_self _ _)

theorem popMin_le {l : List (Nat × Nat × Nat)} {m : Nat × Nat × Nat}
    {r : List (Nat × Nat × Nat)} (h : popMin l = some (m, r)) :
    ∀ x ∈ l, pqLe m x := by
  induction l generalizing m r with
  | nil => simp [popMin] at h
  | cons x xs ih =>
    cases hx : popMin xs with
    | none =>
      have hxs : xs = [] := popMin_eq_none.mp hx
      simp only [popMin, hx, Option.some.injEq, Prod.mk.injEq] at h
      obtain ⟨h1, h2⟩ := h
      subst h1; subst hxs
      intro y hy
      rcases List.mem_cons.mp hy with h' | h'
      · rw [h']; exact pqLe_refl _
      · simp at h'
    | some p =>
      obtain ⟨m', r'⟩ := p
      simp only [popMin, hx] at h
      intro y hy
      by_cases hle : pqLe x m'
      · rw [if_pos hle] at h
        simp only [Option.some.injEq, Prod.mk.injEq] at h
        obtain ⟨h1, h2⟩ := h
        subst h1
        rcases List.mem_cons.mp hy with h' | h'
        · rw [h']; exact pqLe_refl _
        · exact pqLe_trans hle (ih hx y h')
      · rw [if_neg hle] at h
        simp only [Option.some.injEq, Prod.mk.injEq] at h
        obtain ⟨h1, h2⟩ := h
        subst h1
        have hm'x : pqLe m' x := (pqLe_total x m').resolve_left hle
        rcases List.mem_cons.mp hy with h' | h'
        · rw [h']; exact hm'x
        · exact ih hx y h'

theorem popMin_congr_perm {l l' : List (Nat × Nat × Nat)} {m : Nat × Nat × Nat}
    {r : List (Nat × Nat × Nat)} (hp : l.Perm l') (h : popMin l = some (m, r)) :
    ∃ r', popMin l' = some (m, r') ∧ r.Perm r' := by
  cases hl' : popMin l' with
  | none =>
    rw [popMin_eq_none.mp hl'] at hp
    rw [popMin_eq_none.mpr hp.eq_nil] at h
    exact absurd h (by simp)
  | some p =>
    obtain ⟨m', r''⟩ := p
    have h1 : pqLe m m' := popMin_le h m' (hp.symm.mem_iff.mp (popMin_mem hl'))
    have h2 : pqLe m' m := popMin_le hl' m (hp.mem_iff.mp (popMin_mem h))
    have hm : m = m' := pqLe_antisymm h1 h2
    subst hm
    have hcons : (m :: r).Perm (m :: r'') :=
      (popMin_perm h).symm.trans (hp.trans (popMin_perm hl'))
    exact ⟨r'', rfl, hcons.cons_inv⟩

theorem popMin_append_of_lt {p ex : List (Nat × Nat × Nat)} {m : Nat × Nat × Nat}
    {r : List (Nat × Nat × Nat)} (h : popMin p = some (m, r))
    (hlt : ∀ x ∈ ex, ∀ y ∈ p, y.1 < x.1) :
    ∃ r2, popMin (p ++ ex) = some (m, r2) ∧ r2.Perm (r ++ ex) := by
  cases hq : popMin (p ++ ex) with
  | none =>
    have := popMin_eq_none.mp hq
    rcases List.append_eq_nil.mp this with ⟨hp0, _⟩
    rw [popMin_eq_none.mpr hp0] at h
    exact absurd h (by simp)
  | some q =>
    obtain ⟨m2, r2⟩ := q
    have hm2mem : m2 ∈ p ++ ex := popMin_mem hq
    have hmmem : m ∈ p ++ ex := List.mem_append_left _ (popMin_mem h)
    have h1 : pqLe m2 m := popMin_le hq m hmmem
    have hm2p : m2 ∈ p := by
      rcases List.mem_append.mp hm2mem with h' | h'
      · exact h'
      · exact absurd h1 (not_pqLe_of_fst_lt (hlt m2 h' m (popMin_mem h)))
    have h2 : pqLe m m2 := popMin_le h m2 hm2p
    have hm : m = m2 := pqLe_antisymm h2 h1
    subst hm
    have hcons : (m :: r2).Perm (m :: (r ++ ex)) :=
      (popMin_perm hq).symm.trans ((popMin_perm h).append_right ex)
    exact ⟨r2, rfl, hcons.cons_inv⟩

theorem dijkstraLoop_empty_pq (G : Graph) (ds ms fuel : Nat)
    (e : List (Nat × Nat × Nat)) (ex : List Nat) :
    dijkstraLoop G ds ms fuel ⟨e, [], ex⟩ = e := by
  cases fuel <;> simp [dijkstraLoop, popMin]

/-! ## Properties of the per-neighbor best-connection fold -/

/-- Transit arrivals are not before departures: guaranteed for every graph the
builder produces (spec data model: arrival-time always at least
departure-time after normalization). -/
def WFGraph (G : Graph) : Prop :=
  ∀ e ∈ G.edges, e.data.transfer = false → e.data.departure_time ≤ e.data.arrival_time

def WFEdges (es : List EdgeData) : Prop :=
  ∀ e ∈ es, e.transfer = false → e.departure_time ≤ e.arrival_time

theorem wfEdges_edgesBetween {G : Graph} (h : WFGraph G) (s n : Nat) :
    WFEdges (edgesBetween G s n) := by
  intro e he
  simp only [edgesBetween, List.mem_map, List.mem_filter] at he
  obtain ⟨e', ⟨he', _⟩, hdata⟩ := he
  subst hdata
  exact h e' he'

/-- Any usable edge arrives no earlier than the current time, for a
well-formed edge. -/
theorem edgeCandidate_lower {cur tr : Nat} {e : EdgeData} {a t : Nat}
    (hwf : e.transfer = false → e.departure_time ≤ e.arrival_time)
    (h : edgeCandidate cur tr e = some (a, t)) : cur ≤ a := by
  unfold edgeCandidate at h
  cases htr : e.transfer with
  | true =>
    simp [htr] at h
    omega
  | false =>
    have hda := hwf htr
    simp only [htr, Bool.false_eq_true, if_false] at h
    split_ifs at h with hwrap hguard hguard
    all_goals simp only [Option.some.injEq, Prod.mk.injEq] at h
    all_goals omega

/-- A usable edge of strictly positive duration arrives strictly after the
current time. -/
theorem edgeCandidate_pos_lower {cur tr : Nat} {e : EdgeData} {a t : Nat}
    (hpos1 : e.transfer = true → 0 < e.duration)
    (hpos2 : e.transfer = false → e.departure_time < e.arrival_time)
    (h : edgeCandidate cur tr e = some (a, t)) : cur < a := by
  unfold edgeCandidate at h
  cases htr : e.transfer with
  | true =>
    have := hpos1 htr
    simp [htr] at h
    omega
  | false =>
    have hda := hpos2 htr
    simp only [htr, Bool.false_eq_true, if_false] at h
    split_ifs at h with hwrap hguard hguard
    all_goals simp only [Option.some.injEq, Prod.mk.injEq] at h
    all_goals omega

theorem considerEdge_of_none {ds ms cur tr : Nat} {best : Option (Nat × Nat)} {e : EdgeData}
    (h : edgeCandidate cur tr e = none) :
    considerEdge ds ms cur tr best e = best := by
  unfold considerEdge; rw [h]

theorem considerEdge_of_some {ds ms cur tr : Nat} {best : Option (Nat × Nat)} {e : EdgeData}
    {ca ct : Nat} (h : edgeCandidate cur tr e = some (ca, ct)) :
    considerEdge ds ms cur tr best e =
      (if ca - ds ≤ ms then updateBest best ca ct else best) := by
  unfold considerEdge; rw [h]

/-- Every value held by the running best option respects the budget. -/
theorem considerEdge_budget {ds ms cur tr : Nat} {best : Option (Nat × Nat)} {e : EdgeData}
    (hb : ∀ a t, best = some (a, t) → a - ds ≤ ms) :
    ∀ a t, considerEdge ds ms cur tr best e = some (a, t) → a - ds ≤ ms := by
  intro a t h
  cases hc : edgeCandidate cur tr e with
  | none => rw [considerEdge_of_none hc] at h; exact hb a t h
  | some c =>
    obtain ⟨ca, ct⟩ := c
    rw [considerEdge_of_some hc] at h
    by_cases h1 : ca - ds ≤ ms
    · rw [if_pos h1] at h
      cases hbv : best with
      | none =>
        rw [hbv] at h
        simp only [updateBest, Option.some.injEq, Prod.mk.injEq] at h
        omega
      | some q =>
        obtain ⟨ba, bt⟩ := q
        have hba := hb ba bt hbv
        rw [hbv] at h
        simp only [updateBest] at h
        by_cases hlt : ca < ba
        · rw [if_pos hlt] at h
          simp only [Option.some.injEq, Prod.mk.injEq] at h
          omega
        · rw [if_neg hlt] at h
          simp only [Option.some.injEq, Prod.mk.injEq] at h
          omega
    · rw [if_neg h1] at h
      exact hb a t h

theorem foldl_considerEdge_budget {ds ms cur tr : Nat} (es : List EdgeData)
    (acc : Option (Nat × Nat)) (hacc : ∀ a t, acc = some (a, t) → a - ds ≤ ms) :
    ∀ a t, es.foldl (considerEdge ds ms cur tr) acc = some (a, t) → a - ds ≤ ms := by
  induction es generalizing acc with
  | nil => exact hacc
  | cons e es ih => exact ih _ (considerEdge_budget hacc)

theorem bestConnection_budget {ds ms cur tr : Nat} {es : List EdgeData} {a t : Nat}
    (h : bestConnection ds ms cur tr es = some (a, t)) : a - ds ≤ ms :=
  foldl_considerEdge_budget es none (by simp) a t h

theorem considerEdge_lower {ds ms cur tr : Nat} {best : Option (Nat × Nat)} {e : EdgeData}
    (hwf : e.transfer = false → e.departure_time ≤ e.arrival_time)
    (hb : ∀ a t, best = some (a, t) → cur ≤ a) :
    ∀ a t, considerEdge ds ms cur tr best e = some (a, t) → cur ≤ a := by
  intro a t h
  cases hc : edgeCandidate cur tr e with
  | none => rw [considerEdge_of_none hc] at h; exact hb a t h
  | some c =>
    obtain ⟨ca, ct⟩ := c
    have hca : cur ≤ ca := edgeCandidate_lower hwf hc
    rw [considerEdge_of_some hc] at h
    by_cases h1 : ca - ds ≤ ms
    · rw [if_pos h1] at h
      cases hbv : best with
      | none =>
        rw [hbv] at h
        simp only [updateBest, Option.some.injEq, Prod.mk.injEq] at h
        omega
      | some q =>
        obtain ⟨ba, bt⟩ := q
        have hba := hb ba bt hbv
        rw [hbv] at h
        simp only [updateBest] at h
        by_cases hlt : ca < ba
        · rw [if_pos hlt] at h
          simp only [Option.some.injEq, Prod.mk.injEq] at h
          omega
        · rw [if_neg hlt] at h
          simp only [Option.some.injEq, Prod.mk.injEq] at h
          omega
    · rw [if_neg h1] at h
      exact hb a t h

theorem bestConnection_lower {ds ms cur tr : Nat} {es : List EdgeData} {a t : Nat}
    (hwf : WFEdges es) (h : bestConnection ds ms cur tr es = some (a, t)) : cur ≤ a := by
  have haux : ∀ (es' : List EdgeData), WFEdges es' →
      ∀ (acc : Option (Nat × Nat)), (∀ a t, acc = some (a, t) → cur ≤ a) →
      ∀ a t, es'.foldl (considerEdge ds ms cur tr) acc = some (a, t) → cur ≤ a := by
    intro es'
    induction es' with
    | nil => intro _ acc hacc; exact hacc
    | cons e es' ih =>
      intro hwf' acc hacc
      have hwfe : e.transfer = false → e.departure_time ≤ e.arrival_time :=
        hwf' e (List.mem_cons_self _ _)
      have hwfrest : WFEdges es' := fun x hx => hwf' x (List.mem_cons_of_mem _ hx)
      exact ih hwfrest _ (considerEdge_lower hwfe hacc)
  exact haux es hwf none (by simp) a t h

/-- With a zero budget, at the departure instant, no edge of strictly
positive duration is admissible. -/
theorem considerEdge_budget0 {ds tr : Nat} {best : Option (Nat × Nat)} {e : EdgeData}
    (hpos1 : e.transfer = true → 0 < e.duration)
    (hpos2 : e.transfer = false → e.departure_time < e.arrival_time) :
    considerEdge ds 0 ds tr best e = best := by
  cases hc : edgeCandidate ds tr e with
  | none => exact considerEdge_of_none hc
  | some c =>
    obtain ⟨ca, ct⟩ := c
    have hca : ds < ca := edgeCandidate_pos_lower hpos1 hpos2 hc
    rw [considerEdge_of_some hc, if_neg (by omega)]

/-! ## The budget relation between two runs (claim C4 machinery) -/

/-- Relation between the running best option at the small budget `m1` and at a
larger budget: either they agree, or only the large-budget run has found a
candidate and it is beyond the small budget. -/
def BestRel (ds m1 : Nat) (b1 b2 : Option (Nat × Nat)) : Prop :=
  b1 = b2 ∨ (b1 = none ∧ ∃ a t, b2 = some (a, t) ∧ m1 < a - ds)

theorem considerEdge_rel {ds m1 m2 cur tr : Nat} {b1 b2 : Option (Nat × Nat)} {e : EdgeData}
    (hm : m1 ≤ m2) (hrel : BestRel ds m1 b1 b2)
    (hb1 : ∀ a t, b1 = some (a, t) → a - ds ≤ m1) :
    BestRel ds m1 (considerEdge ds m1 cur tr b1 e) (considerEdge ds m2 cur tr b2 e) := by
  cases hc : edgeCandidate cur tr e with
  | none => rw [considerEdge_of_none hc, considerEdge_of_none hc]; exact hrel
  | some c =>
    obtain ⟨ca, ct⟩ := c
    rw [considerEdge_of_some hc, considerEdge_of_some hc]
    by_cases h1 : ca - ds ≤ m1
    · have h2 : ca - ds ≤ m2 := le_trans h1 hm
      rw [if_pos h1, if_pos h2]
      rcases hrel with he | ⟨hn, a, t, hs, hgt⟩
      · subst he; left; rfl
      · subst hn; rw [hs]
        have hlt : ca < a := by omega
        left
        simp [updateBest, hlt]
    · rw [if_neg h1]
      by_cases h2 : ca - ds ≤ m2
      · rw [if_pos h2]
        rcases hrel with he | ⟨hn, a, t, hs, hgt⟩
        · subst he
          cases hb : b1 with
          | none =>
            right
            exact ⟨rfl, ca, ct, by simp [updateBest], by omega⟩
          | some q =>
            obtain ⟨ba, bt⟩ := q
            have hba := hb1 ba bt hb
            have hnlt : ¬ ca < ba := by omega
            left
            simp [updateBest, hnlt]
        · subst hn; rw [hs]
          refine Or.inr ⟨rfl, ?_⟩
          by_cases hlt : ca < a
          · exact ⟨ca, ct, by simp [updateBest, hlt], by omega⟩
          · exact ⟨a, t, by simp [updateBest, hlt], hgt⟩
      · rw [if_neg h2]
        exact hrel

theorem bestConnection_rel {ds m1 m2 cur tr : Nat} (hm : m1 ≤ m2) (es : List EdgeData) :
    BestRel ds m1 (bestConnection ds m1 cur tr es) (bestConnection ds m2 cur tr es) := by
  have haux : ∀ (es' : List EdgeData) (b1 b2 : Option (Nat × Nat)),
      BestRel ds m1 b1 b2 → (∀ a t, b1 = some (a, t) → a - ds ≤ m1) →
      BestRel ds m1 (es'.foldl (considerEdge ds m1 cur tr) b1)
        (es'.foldl (considerEdge ds m2 cur tr) b2) := by
    intro es'
    induction es' with
    | nil => intro b1 b2 hrel _; exact hrel
    | cons e es' ih =>
      intro b1 b2 hrel hb1
      exact ih _ _ (considerEdge_rel hm hrel hb1) (considerEdge_budget hb1)
  exact haux es none none (Or.inl rfl) (by simp)

/-! ## Unfolding lemmas for relaxNeighbor -/

theorem relaxNeighbor_of_none {G : Graph} {ds ms cur cs tr : Nat}
    {st : List (Nat × Nat × Nat) × List (Nat × Nat × Nat)} {nb : Nat}
    (h : bestConnection ds ms cur tr (edgesBetween G cs nb) = none) :
    relaxNeighbor G ds ms cur cs tr st nb = st := by
  unfold relaxNeighbor; rw [h]

theorem relaxNeighbor_of_some_new {G : Graph} {ds ms cur cs tr : Nat}
    {st : List (Nat × Nat × Nat) × List (Nat × Nat × Nat)} {nb ba bt : Nat}
    (h : bestConnection ds ms cur tr (edgesBetween G cs nb) = some (ba, bt))
    (hl : lookupStop st.1 nb = none) :
    relaxNeighbor G ds ms cur cs tr st nb =
      (updateStop st.1 nb (ba, bt), st.2 ++ [(ba, nb, bt)]) := by
  unfold relaxNeighbor; rw [h]; simp only [hl]

theorem relaxNeighbor_of_some_found {G : Graph} {ds ms cur cs tr : Nat}
    {st : List (Nat × Nat × Nat) × List (Nat × Nat × Nat)} {nb ba bt ea et : Nat}
    (h : bestConnection ds ms cur tr (edgesBetween G cs nb) = some (ba, bt))
    (hl : lookupStop st.1 nb = some (ea, et)) :
    relaxNeighbor G ds ms cur cs tr st nb =
      (if ba < ea then (updateStop st.1 nb (ba, bt), st.2 ++ [(ba, nb, bt)]) else st) := by
  unfold relaxNeighbor; rw [h]; simp only [hl]

/-! ## Permutation helpers for queue pushes -/

theorem perm_push {α : Type} {p2 p1 ex : List α} {x : α} (h : p2.Perm (p1 ++ ex)) :
    (p2 ++ [x]).Perm ((p1 ++ [x]) ++ ex) := by
  have h1 : (p2 ++ [x]).Perm ((p1 ++ ex) ++ [x]) := h.append_right [x]
  have h2 : ((p1 ++ ex) ++ [x] : List α) = p1 ++ (ex ++ [x]) := by
    simp [List.append_assoc]
  have h3 : (p1 ++ (ex ++ [x])).Perm (p1 ++ ([x] ++ ex)) :=
    List.Perm.append_left p1 List.perm_append_comm
  have h4 : (p1 ++ ([x] ++ ex) : List α) = (p1 ++ [x]) ++ ex := by
    simp [List.append_assoc]
  rw [h2] at h1
  rw [h4] at h3
  exact h1.trans h3

theorem perm_push_right {α : Type} {p2 p1 ex : List α} {x : α} (h : p2.Perm (p1 ++ ex)) :
    (p2 ++ [x]).Perm (p1 ++ (ex ++ [x])) := by
  have h1 : (p2 ++ [x]).Perm ((p1 ++ ex) ++ [x]) := h.append_right [x]
  have h2 : ((p1 ++ ex) ++ [x] : List α) = p1 ++ (ex ++ [x]) := by
    simp [List.append_assoc]
  rw [h2] at h1
  exact h1

/-! ## The run-to-run simulation relation (claim C4) -/

/-- Relation between the small-budget run's state and the large-budget run's
state, over the pair (earliest-arrival map, queue).  The large run knows
every record of the small run verbatim; records it holds within the small
budget are shared; the small run's records and queue respect its own budget;
the large queue is the small queue plus extra entries beyond the small
budget. -/
structure RunRel (ds m1 : Nat)
    (st1 st2 : List (Nat × Nat × Nat) × List (Nat × Nat × Nat)) : Prop where
  agree : ∀ s v, lookupStop st1.1 s = some v → lookupStop st2.1 s = some v
  agree_back : ∀ s a t, lookupStop st2.1 s = some (a, t) → a - ds ≤ m1 →
    lookupStop st1.1 s = some (a, t)
  ebound : ∀ s a t, lookupStop st1.1 s = some (a, t) → a - ds ≤ m1
  qbound : ∀ x ∈ st1.2, x.1 - ds ≤ m1
  qrel : ∃ ex, st2.2.Perm (st1.2 ++ ex) ∧ ∀ x ∈ ex, m1 < x.1 - ds

theorem relaxNeighbor_rel {G : Graph} {ds m1 m2 cur cs tr : Nat}
    {st1 st2 : List (Nat × Nat × Nat) × List (Nat × Nat × Nat)}
    (hm : m1 ≤ m2) (h : RunRel ds m1 st1 st2) (nb : Nat) :
    RunRel ds m1 (relaxNeighbor G ds m1 cur cs tr st1 nb)
      (relaxNeighbor G ds m2 cur cs tr st2 nb) := by
  obtain ⟨hA, hB, hE, hQ, ex, hperm, hexgt⟩ := h
  rcases @bestConnection_rel ds m1 m2 cur tr hm (edgesBetween G cs nb) with
    heq | ⟨hn1, ba, bt, hs2, hgt⟩
  · cases hb1 : bestConnection ds m1 cur tr (edgesBetween G cs nb) with
    | none =>
      have hb2 : bestConnection ds m2 cur tr (edgesBetween G cs nb) = none := by
        rw [← heq]; exact hb1
      rw [relaxNeighbor_of_none hb1, relaxNeighbor_of_none hb2]
      exact ⟨hA, hB, hE, hQ, ex, hperm, hexgt⟩
    | some q =>
      obtain ⟨ba, bt⟩ := q
      have hb2 : bestConnection ds m2 cur tr (edgesBetween G cs nb) = some (ba, bt) := by
        rw [← heq]; exact hb1
      have hbound : ba - ds ≤ m1 := bestConnection_budget hb1
      cases hl1 : lookupStop st1.1 nb with
      | none =>
        cases hl2 : lookupStop st2.1 nb with
        | none =>
          rw [relaxNeighbor_of_some_new hb1 hl1, relaxNeighbor_of_some_new hb2 hl2]
          refine ⟨?_, ?_, ?_, ?_, ex, perm_push hperm, hexgt⟩
          · intro s v hv
            by_cases hs : s = nb
            · subst hs
              rw [lookupStop_updateStop_self] at hv ⊢; exact hv
            · rw [lookupStop_updateStop_ne _ hs] at hv ⊢
              exact hA s v hv
          · intro s a t hv hle
            by_cases hs : s = nb
            · subst hs
              rw [lookupStop_updateStop_self] at hv ⊢; exact hv
            · rw [lookupStop_updateStop_ne _ hs] at hv ⊢
              exact hB s a t hv hle
          · intro s a t hv
            by_cases hs : s = nb
            · subst hs
              rw [lookupStop_updateStop_self] at hv
              simp only [Option.some.injEq, Prod.mk.injEq] at hv
              omega
            · rw [lookupStop_updateStop_ne _ hs] at hv
              exact hE s a t hv
          · intro x hx
            rcases List.mem_append.mp hx with hx | hx
            · exact hQ x hx
            · simp only [List.mem_singleton] at hx
              subst hx; simpa using hbound
        | some p =>
          obtain ⟨ea2, et2⟩ := p
          have hea2 : m1 < ea2 - ds := by
            by_contra hc
            push_neg at hc
            have hcontra := hB nb ea2 et2 hl2 hc
            rw [hl1] at hcontra
            exact absurd hcontra (by simp)
          have hlt : ba < ea2 := by omega
          rw [relaxNeighbor_of_some_new hb1 hl1,
            relaxNeighbor_of_some_found hb2 hl2, if_pos hlt]
          refine ⟨?_, ?_, ?_, ?_, ex, perm_push hperm, hexgt⟩
          · intro s v hv
            by_cases hs : s = nb
            · subst hs
              rw [lookupStop_updateStop_self] at hv ⊢; exact hv
            · rw [lookupStop_updateStop_ne _ hs] at hv ⊢
              exact hA s v hv
          · intro s a t hv hle
            by_cases hs : s = nb
            · subst hs
              rw [lookupStop_updateStop_self] at hv ⊢; exact hv
            · rw [lookupStop_updateStop_ne _ hs] at hv ⊢
              exact hB s a t hv hle
          · intro s a t hv
            by_cases hs : s = nb
            · subst hs
              rw [lookupStop_updateStop_self] at hv
              simp only [Option.some.injEq, Prod.mk.injEq] at hv
              omega
            · rw [lookupStop_updateStop_ne _ hs] at hv
              exact hE s a t hv
          · intro x hx
            rcases List.mem_append.mp hx with hx | hx
            · exact hQ x hx
            · simp only [List.mem_singleton] at hx
              subst hx; simpa using hbound
      | some p =>
        obtain ⟨ea, et⟩ := p
        have hl2 : lookupStop st2.1 nb = some (ea, et) := hA nb (ea, et) hl1
        rw [relaxNeighbor_of_some_found hb1 hl1, relaxNeighbor_of_some_found hb2 hl2]
        by_cases hlt : ba < ea
        · rw [if_pos hlt, if_pos hlt]
          refine ⟨?_, ?_, ?_, ?_, ex, perm_push hperm, hexgt⟩
          · intro s v hv
            by_cases hs : s = nb
            · subst hs
              rw [lookupStop_updateStop_self] at hv ⊢; exact hv
            · rw [lookupStop_updateStop_ne _ hs] at hv ⊢
              exact hA s v hv
          · intro s a t hv hle
            by_cases hs : s = nb
            · subst hs
              rw [lookupStop_updateStop_self] at hv ⊢; exact hv
            · rw [lookupStop_updateStop_ne _ hs] at hv ⊢
              exact hB s a t hv hle
          · intro s a t hv
            by_cases hs : s = nb
            · subst hs
              rw [lookupStop_updateStop_self] at hv
              simp only [Option.some.injEq, Prod.mk.injEq] at hv
              omega
            · rw [lookupStop_updateStop_ne _ hs] at hv
              exact hE s a t hv
          · intro x hx
            rcases List.mem_append.mp hx with hx | hx
            · exact hQ x hx
            · simp only [List.mem_singleton] at hx
              subst hx; simpa using hbound
        · rw [if_neg hlt, if_neg hlt]
          exact ⟨hA, hB, hE, hQ, ex, hperm, hexgt⟩
  · rw [relaxNeighbor_of_none hn1]
    cases hl2 : lookupStop st2.1 nb with
    | none =>
      rw [relaxNeighbor_of_some_new hs2 hl2]
      refine ⟨?_, ?_, hE, hQ, ex ++ [(ba, nb, bt)], perm_push_right hperm, ?_⟩
      · intro s v hv
        by_cases hs : s = nb
        · subst hs
          have := hA s v hv
          rw [hl2] at this
          exact absurd this (by simp)
        · rw [lookupStop_updateStop_ne _ hs]
          exact hA s v hv
      · intro s a t hv hle
        by_cases hs : s = nb
        · subst hs
          rw [lookupStop_updateStop_self] at hv
          simp only [Option.some.injEq, Prod.mk.injEq] at hv
          omega
        · rw [lookupStop_updateStop_ne _ hs] at hv
          exact hB s a t hv hle
      · intro x hx
        rcases List.mem_append.mp hx with hx | hx
        · exact hexgt x hx
        · simp only [List.mem_singleton] at hx
          subst hx; simpa using hgt
    | some p =>
      obtain ⟨ea2, et2⟩ := p
      rw [relaxNeighbor_of_some_found hs2 hl2]
      by_cases hlt : ba < ea2
      · rw [if_pos hlt]
        refine ⟨?_, ?_, hE, hQ, ex ++ [(ba, nb, bt)], perm_push_right hperm, ?_⟩
        · intro s v hv
          by_cases hs : s = nb
          · subst hs
            exfalso
            have hsame := hA s v hv
            rw [hl2] at hsame
            simp only [Option.some.injEq] at hsame
            obtain ⟨va, vt⟩ := v
            have hvb := hE s va vt hv
            have h1 : ea2 = va := by
              have := congrArg Prod.fst hsame
              simpa using this
            omega
          · rw [lookupStop_updateStop_ne _ hs]
            exact hA s v hv
        · intro s a t hv hle
          by_cases hs : s = nb
          · subst hs
            rw [lookupStop_updateStop_self] at hv
            simp only [Option.some.injEq, Prod.mk.injEq] at hv
            omega
          · rw [lookupStop_updateStop_ne _ hs] at hv
            exact hB s a t hv hle
        · intro x hx
          rcases List.mem_append.mp hx with hx | hx
          · exact hexgt x hx
          · simp only [List.mem_singleton] at hx
            subst hx; simpa using hgt
      · rw [if_neg hlt]
        exact ⟨hA, hB, hE, hQ, ex, hperm, hexgt⟩

theorem relaxFold_rel {G : Graph} {ds m1 m2 cur cs tr : Nat} (hm : m1 ≤ m2) (ns : List Nat) :
    ∀ {st1 st2 : List (Nat × Nat × Nat) × List (Nat × Nat × Nat)}, RunRel ds m1 st1 st2 →
    RunRel ds m1 (ns.foldl (relaxNeighbor G ds m1 cur cs tr) st1)
      (ns.foldl (relaxNeighbor G ds m2 cur cs tr) st2) := by
  induction ns with
  | nil => intro st1 st2 h; exact h
  | cons nb ns ih =>
    intro st1 st2 h
    exact ih (relaxNeighbor_rel hm h nb)

/-! ## The tail of the large-budget run (after the small run has finished) -/

/-- Invariant of the large-budget run once the small-budget run's queue is
empty: it still carries every small-run record verbatim, and everything in
its queue is beyond the small budget. -/
structure TailInv (ds m1 : Nat) (e1 : List (Nat × Nat × Nat))
    (st2 : List (Nat × Nat × Nat) × List (Nat × Nat × Nat)) : Prop where
  agree : ∀ s v, lookupStop e1 s = some v → lookupStop st2.1 s = some v
  qgt : ∀ x ∈ st2.2, m1 < x.1 - ds

theorem relaxNeighbor_tail {G : Graph} {ds m1 m2 cur cs tr : Nat}
    {e1 : List (Nat × Nat × Nat)} {st2 : List (Nat × Nat × Nat) × List (Nat × Nat × Nat)}
    (hwf : WFGraph G) (hE : ∀ s a t, lookupStop e1 s = some (a, t) → a - ds ≤ m1)
    (hcur : m1 < cur - ds) (h : TailInv ds m1 e1 st2) (nb : Nat) :
    TailInv ds m1 e1 (relaxNeighbor G ds m2 cur cs tr st2 nb) := by
  cases hb : bestConnection ds m2 cur tr (edgesBetween G cs nb) with
  | none => rw [relaxNeighbor_of_none hb]; exact h
  | some q =>
    obtain ⟨ba, bt⟩ := q
    have hba : cur ≤ ba := bestConnection_lower (wfEdges_edgesBetween hwf cs nb) hb
    have hbagt : m1 < ba - ds := by omega
    cases hl2 : lookupStop st2.1 nb with
    | none =>
      rw [relaxNeighbor_of_some_new hb hl2]
      constructor
      · intro s v hv
        by_cases hs : s = nb
        · subst hs
          have := h.agree s v hv
          rw [hl2] at this
          exact absurd this (by simp)
        · rw [lookupStop_updateStop_ne _ hs]
          exact h.agree s v hv
      · intro x hx
        rcases List.mem_append.mp hx with hx | hx
        · exact h.qgt x hx
        · simp only [List.mem_singleton] at hx
          subst hx; simpa using hbagt
    | some p =>
      obtain ⟨ea2, et2⟩ := p
      rw [relaxNeighbor_of_some_found hb hl2]
      by_cases hlt : ba < ea2
      · rw [if_pos hlt]
        constructor
        · intro s v hv
          by_cases hs : s = nb
          · subst hs
            exfalso
            have hsame := h.agree s v hv
            rw [hl2] at hsame
            simp only [Option.some.injEq] at hsame
            obtain ⟨va, vt⟩ := v
            have hvb := hE s va vt hv
            have h1 : ea2 = va := by
              have := congrArg Prod.fst hsame
              simpa using this
            omega
          · rw [lookupStop_updateStop_ne _ hs]
            exact h.agree s v hv
        · intro x hx
          rcases List.mem_append.mp hx with hx | hx
          · exact h.qgt x hx
          · simp only [List.mem_singleton] at hx
            subst hx; simpa using hbagt
      · rw [if_neg hlt]
        exact h

theorem relaxFold_tail {G : Graph} {ds m1 m2 cur cs tr : Nat}
    {e1 : List (Nat × Nat × Nat)} (hwf : WFGraph G)
    (hE : ∀ s a t, lookupStop e1 s = some (a, t) → a - ds ≤ m1)
    (hcur : m1 < cur - ds) (ns : List Nat) :
    ∀ {st2 : List (Nat × Nat × Nat) × List (Nat × Nat × Nat)}, TailInv ds m1 e1 st2 →
    TailInv ds m1 e1 (ns.foldl (relaxNeighbor G ds m2 cur cs tr) st2) := by
  induction ns with
  | nil => intro st2 h; exact h
  | cons nb ns ih =>
    intro st2 h
    exact ih (relaxNeighbor_tail hwf hE hcur h nb)

theorem dijkstraLoop_tail {G : Graph} {ds m1 m2 : Nat} {e1 : List (Nat × Nat × Nat)}
    (hwf : WFGraph G) (hE : ∀ s a t, lookupStop e1 s = some (a, t) → a - ds ≤ m1) :
    ∀ (fuel : Nat) (e2 p2 : List (Nat × Nat × Nat)) (ex : List Nat),
    TailInv ds m1 e1 (e2, p2) →
    ∀ s v, lookupStop e1 s = some v →
    lookupStop (dijkstraLoop G ds m2 fuel ⟨e2, p2, ex⟩) s = some v := by
  intro fuel
  induction fuel with
  | zero =>
    intro e2 p2 ex h s v hv
    exact h.agree s v hv
  | succ f ih =>
    intro e2 p2 ex h s v hv
    cases hpop : popMin p2 with
    | none =>
      simp only [dijkstraLoop, hpop]
      exact h.agree s v hv
    | some q =>
      obtain ⟨⟨a, σ, t⟩, r⟩ := q
      have hagt : m1 < a - ds := h.qgt (a, σ, t) (popMin_mem hpop)
      have hrsub : ∀ x ∈ r, m1 < x.1 - ds := fun x hx =>
        h.qgt x ((popMin_perm hpop).mem_iff.mpr (List.mem_cons_of_mem _ hx))
      simp only [dijkstraLoop, hpop]
      by_cases hexm : σ ∈ ex
      · rw [if_pos hexm]
        exact ih e2 r ex ⟨h.agree, hrsub⟩ s v hv
      · rw [if_neg hexm]
        by_cases hbud : a - ds > m2
        · rw [if_pos hbud]
          exact ih e2 r (σ :: ex) ⟨h.agree, hrsub⟩ s v hv
        · rw [if_neg hbud]
          have hfold := @relaxFold_tail G ds m1 m2 a σ t e1 hwf hE hagt
            (neighbors G σ) (e2, r) ⟨h.agree, hrsub⟩
          exact ih _ _ (σ :: ex) hfold s v hv

/-! ## The two-budget lockstep simulation (claim C4 main lemma) -/

/-- Every record the small-budget run ends with is present, verbatim, in the
large-budget run's final map, for the same fuel. -/
theorem dijkstraLoop_lockstep {G : Graph} {ds m1 m2 : Nat}
    (hwf : WFGraph G) (hm : m1 ≤ m2) :
    ∀ (fuel : Nat) (ex : List Nat)
      (st1 st2 : List (Nat × Nat × Nat) × List (Nat × Nat × Nat)),
    RunRel ds m1 st1 st2 →
    ∀ s v, lookupStop (dijkstraLoop G ds m1 fuel ⟨st1.1, st1.2, ex⟩) s = some v →
           lookupStop (dijkstraLoop G ds m2 fuel ⟨st2.1, st2.2, ex⟩) s = some v := by
  intro fuel
  induction fuel with
  | zero =>
    intro ex st1 st2 h s v hv
    simp only [dijkstraLoop] at hv ⊢
    exact h.agree s v hv
  | succ f ih =>
    intro ex st1 st2 h s v hv
    obtain ⟨hA, hB, hE, hQ, ex2, hperm, hexgt⟩ := h
    cases hpop : popMin st1.2 with
    | none =>
      have hnil : st1.2 = [] := popMin_eq_none.mp hpop
      rw [hnil, dijkstraLoop_empty_pq] at hv
      rw [hnil] at hperm
      have hq2 : ∀ x ∈ st2.2, m1 < x.1 - ds := fun x hx =>
        hexgt x (by simpa using hperm.mem_iff.mp hx)
      exact dijkstraLoop_tail hwf hE (f + 1) st2.1 st2.2 ex ⟨hA, hq2⟩ s v hv
    | some q =>
      obtain ⟨⟨a, σ, t⟩, r1⟩ := q
      have hlt : ∀ x ∈ ex2, ∀ y ∈ st1.2, y.1 < x.1 := by
        intro x hx y hy
        have h1 := hexgt x hx
        have h2 := hQ y hy
        omega
      obtain ⟨rex, hpopapp, hrexperm⟩ := popMin_append_of_lt hpop hlt
      obtain ⟨r2, hpop2, hr2perm⟩ := popMin_congr_perm hperm.symm hpopapp
      have hr2 : r2.Perm (r1 ++ ex2) := hr2perm.symm.trans hrexperm
      have haQ : a - ds ≤ m1 := hQ (a, σ, t) (popMin_mem hpop)
      have hr1Q : ∀ x ∈ r1, x.1 - ds ≤ m1 := fun x hx =>
        hQ x ((popMin_perm hpop).mem_iff.mpr (List.mem_cons_of_mem _ hx))
      simp only [dijkstraLoop, hpop] at hv
      simp only [dijkstraLoop, hpop2]
      by_cases hexm : σ ∈ ex
      · rw [if_pos hexm] at hv
        rw [if_pos hexm]
        exact ih ex (st1.1, r1) (st2.1, r2) ⟨hA, hB, hE, hr1Q, ex2, hr2, hexgt⟩ s v hv
      · rw [if_neg hexm] at hv
        rw [if_neg hexm]
        have hb1 : ¬ (a - ds > m1) := by omega
        have hb2 : ¬ (a - ds > m2) := by omega
        rw [if_neg hb1] at hv
        rw [if_neg hb2]
        have hfold := @relaxFold_rel G ds m1 m2 a σ t hm (neighbors G σ)
          (st1.1, r1) (st2.1, r2) ⟨hA, hB, hE, hr1Q, ex2, hr2, hexgt⟩
        exact ih (σ :: ex) _ _ hfold s v hv

/-! ## Key-distinctness of the earliest-arrival map through the loop -/

theorem relaxNeighbor_keysNodup {G : Graph} {ds ms cur cs tr : Nat}
    {st : List (Nat × Nat × Nat) × List (Nat × Nat × Nat)} {nb : Nat}
    (h : keysNodup st.1) : keysNodup (relaxNeighbor G ds ms cur cs tr st nb).1 := by
  cases hb : bestConnection ds ms cur tr (edgesBetween G cs nb) with
  | none => rw [relaxNeighbor_of_none hb]; exact h
  | some q =>
    obtain ⟨ba, bt⟩ := q
    cases hl : lookupStop st.1 nb with
    | none =>
      rw [relaxNeighbor_of_some_new hb hl]
      exact keysNodup_updateStop h
    | some p =>
      obtain ⟨ea, et⟩ := p
      rw [relaxNeighbor_of_some_found hb hl]
      by_cases hlt : ba < ea
      · rw [if_pos hlt]; exact keysNodup_updateStop h
      · rw [if_neg hlt]; exact h

theorem relaxFold_keysNodup {G : Graph} {ds ms cur cs tr : Nat} (ns : List Nat) :
    ∀ {st : List (Nat × Nat × Nat) × List (Nat × Nat × Nat)}, keysNodup st.1 →
    keysNodup ((ns.foldl (relaxNeighbor G ds ms cur cs tr) st)).1 := by
  induction ns with
  | nil => intro st h; exact h
  | cons nb ns ih => intro st h; exact ih (relaxNeighbor_keysNodup h)

theorem dijkstraLoop_keysNodup {G : Graph} {ds ms : Nat} :
    ∀ (fuel : Nat) (st : SearchState), keysNodup st.earliest_arrival →
    keysNodup (dijkstraLoop G ds ms fuel st) := by
  intro fuel
  induction fuel with
  | zero => intro st h; exact h
  | succ f ih =>
    intro st h
    cases hpop : popMin st.pq with
    | none => simp only [dijkstraLoop, hpop]; exact h
    | some q =>
      obtain ⟨⟨a, σ, t⟩, r⟩ := q
      simp only [dijkstraLoop, hpop]
      by_cases hexm : σ ∈ st.explored
      · rw [if_pos hexm]; exact ih _ h
      · rw [if_neg hexm]
        by_cases hbud : a - ds > ms
        · rw [if_pos hbud]; exact ih _ h
        · rw [if_neg hbud]
          exact ih _ (relaxFold_keysNodup (neighbors G σ) h)

/-! ## Queue-arrangement invariance (claim C9 machinery) -/

theorem relaxNeighbor_perm {G : Graph} {ds ms cur cs tr : Nat}
    {st1 st2 : List (Nat × Nat × Nat) × List (Nat × Nat × Nat)} (nb : Nat)
    (he : st1.1 = st2.1) (hp : st1.2.Perm st2.2) :
    (relaxNeighbor G ds ms cur cs tr st1 nb).1 =
      (relaxNeighbor G ds ms cur cs tr st2 nb).1 ∧
    (relaxNeighbor G ds ms cur cs tr st1 nb).2.Perm
      (relaxNeighbor G ds ms cur cs tr st2 nb).2 := by
  obtain ⟨e1, p1⟩ := st1
  obtain ⟨e2, p2⟩ := st2
  have he' : e1 = e2 := he
  subst he'
  have hp' : p1.Perm p2 := hp
  cases hb : bestConnection ds ms cur tr (edgesBetween G cs nb) with
  | none =>
    rw [relaxNeighbor_of_none hb, relaxNeighbor_of_none hb]
    exact ⟨rfl, hp'⟩
  | some q =>
    obtain ⟨ba, bt⟩ := q
    cases hl : lookupStop e1 nb with
    | none =>
      rw [relaxNeighbor_of_some_new hb hl, relaxNeighbor_of_some_new hb hl]
      exact ⟨rfl, hp'.append_right _⟩
    | some p =>
      obtain ⟨ea, et⟩ := p
      rw [relaxNeighbor_of_some_found hb hl, relaxNeighbor_of_some_found hb hl]
      by_cases hlt : ba < ea
      · rw [if_pos hlt, if_pos hlt]
        exact ⟨rfl, hp'.append_right _⟩
      · rw [if_neg hlt, if_neg hlt]
        exact ⟨rfl, hp'⟩

theorem relaxFold_perm {G : Graph} {ds ms cur cs tr : Nat} (ns : List Nat) :
    ∀ {st1 st2 : List (Nat × Nat × Nat) × List (Nat × Nat × Nat)},
    st1.1 = st2.1 → st1.2.Perm st2.2 →
    (ns.foldl (relaxNeighbor G ds ms cur cs tr) st1).1 =
      (ns.foldl (relaxNeighbor G ds ms cur cs tr) st2).1 ∧
    (ns.foldl (relaxNeighbor G ds ms cur cs tr) st1).2.Perm
      (ns.foldl (relaxNeighbor G ds ms cur cs tr) st2).2 := by
  induction ns with
  | nil => intro st1 st2 he hp; exact ⟨he, hp⟩
  | cons nb ns ih =>
    intro st1 st2 he hp
    obtain ⟨h1, h2⟩ := relaxNeighbor_perm nb he hp
    exact ih h1 h2

/-- The final earliest-arrival map does not depend on how the queue entries
are arranged: only the multiset of pending entries matters, mirroring the
fact that a binary heap's internal layout never affects which tuple
`heappop` returns. -/
theorem dijkstraLoop_pq_perm {G : Graph} {ds ms : Nat} :
    ∀ (fuel : Nat) (e : List (Nat × Nat × Nat)) (ex : List Nat)
      (p p' : List (Nat × Nat × Nat)), p.Perm p' →
    dijkstraLoop G ds ms fuel ⟨e, p, ex⟩ = dijkstraLoop G ds ms fuel ⟨e, p', ex⟩ := by
  intro fuel
  induction fuel with
  | zero => intro e ex p p' hp; rfl
  | succ f ih =>
    intro e ex p p' hp
    cases hpop : popMin p with
    | none =>
      have hnil : p = [] := popMin_eq_none.mp hpop
      subst hnil
      have hnil' : p' = [] := hp.symm.eq_nil
      subst hnil'
      rfl
    | some q =>
      obtain ⟨⟨a, σ, t⟩, r⟩ := q
      obtain ⟨r', hpop', hr'⟩ := popMin_congr_perm hp hpop
      simp only [dijkstraLoop, hpop, hpop']
      by_cases hexm : σ ∈ ex
      · rw [if_pos hexm, if_pos hexm]
        exact ih e ex r r' hr'
      · rw [if_neg hexm, if_neg hexm]
        by_cases hbud : a - ds > ms
        · rw [if_pos hbud, if_pos hbud]
          exact ih e (σ :: ex) r r' hr'
        · rw [if_neg hbud, if_neg hbud]
          obtain ⟨h1, h2⟩ := relaxFold_perm (neighbors G σ)
            (show ((e, r) : List (Nat × Nat × Nat) × List (Nat × Nat × Nat)).1 = (e, r').1
              from rfl) hr'
          rw [h1]
          exact ih _ _ _ _ h2

/-! ## Result construction lemmas -/

theorem sortResults_mem {l : List ResultEntry} {e : ResultEntry} :
    e ∈ sortResults l ↔ e ∈ l :=
  (List.perm_insertionSort _ l).mem_iff

theorem mem_buildResults {final : List (Nat × Nat × Nat)} {o ds : Nat} {e : ResultEntry} :
    e ∈ buildResults final o ds ↔
      ∃ x ∈ final, x.1 ≠ o ∧ e = ⟨x.1, roundTenths (x.2.1 - ds), x.2.2⟩ := by
  simp only [buildResults, List.mem_map, List.mem_filter, decide_eq_true_eq]
  constructor
  · rintro ⟨x, ⟨hx, hne⟩, h⟩
    exact ⟨x, hx, hne, h.symm⟩
  · rintro ⟨x, hx, hne, h⟩
    exact ⟨x, ⟨hx, hne⟩, h.symm⟩

/-! ## Python range arithmetic (claim C6 machinery) -/

theorem pythonRange_step_mul {maxm step : Nat} (h : 0 < step) :
    pythonRange step (maxm + 1) step =
      (List.range (maxm / step)).map (fun k => (k + 1) * step) := by
  unfold pythonRange
  have hcount : (maxm + 1 - step + step - 1) / step = maxm / step := by
    by_cases hle : step ≤ maxm + 1
    · have heq : maxm + 1 - step + step - 1 = maxm := by omega
      rw [heq]
    · have h1 : maxm + 1 - step + step - 1 = step - 1 := by omega
      rw [h1]
      have h2 : (step - 1) / step = 0 := Nat.div_eq_of_lt (by omega)
      have h3 : maxm / step = 0 := Nat.div_eq_of_lt (by omega)
      rw [h2, h3]
  rw [hcount]
  apply List.map_congr_left
  intro k _
  ring

/-! ## DiGraph search lemmas (claims C3 and C8 machinery) -/

theorem relaxStepD_crash {ds ms cur tr nb : Nat} {d : DiEdgeAttrs}
    {st : List (Nat × Nat × Nat) × List (Nat × Nat × Nat)}
    (ht : d.transit = none) :
    relaxStepD ds ms cur tr nb d st = .error "AttributeError" := by
  unfold relaxStepD; rw [ht]

theorem relaxNeighborD_of_none {G : DiGraph} {ds ms cur cs tr nb : Nat}
    {st : List (Nat × Nat × Nat) × List (Nat × Nat × Nat)}
    (hd : edgeDataBetween G cs nb = none) :
    relaxNeighborD G ds ms cur cs tr (.ok st) nb = .ok st := by
  unfold relaxNeighborD; rw [hd]

theorem relaxNeighborD_of_some {G : DiGraph} {ds ms cur cs tr nb : Nat}
    {st : List (Nat × Nat × Nat) × List (Nat × Nat × Nat)} {d : DiEdgeAttrs}
    (hd : edgeDataBetween G cs nb = some d) :
    relaxNeighborD G ds ms cur cs tr (.ok st) nb =
      relaxStepD ds ms cur tr nb d st := by
  unfold relaxNeighborD; rw [hd]

theorem edgeDataBetween_mem {G : DiGraph} {s n : Nat} {d : DiEdgeAttrs}
    (h : edgeDataBetween G s n = some d) : ∃ e ∈ G.edges, e.data = d := by
  unfold edgeDataBetween at h
  cases hl : G.edges.filter (fun e => decide (e.src = s) && decide (e.dst = n)) with
  | nil => rw [hl] at h; simp at h
  | cons x xs =>
    rw [hl] at h
    simp only [List.head?_cons, Option.map_some'] at h
    have hx : x ∈ G.edges.filter (fun e => decide (e.src = s) && decide (e.dst = n)) := by
      rw [hl]; exact List.mem_cons_self _ _
    exact ⟨x, (List.mem_filter.mp hx).1, by simpa using h⟩

theorem relaxStepD_ok {ds ms cur tr nb : Nat} {d : DiEdgeAttrs} {dp ar : Nat}
    {st : List (Nat × Nat × Nat) × List (Nat × Nat × Nat)}
    (ht : d.transit = some (dp, ar)) :
    ∃ st', relaxStepD ds ms cur tr nb d st = .ok st' := by
  cases hce : considerEdge ds ms cur tr none ⟨d.transfer, dp, ar, d.duration⟩ with
  | none =>
    refine ⟨st, ?_⟩
    simp only [relaxStepD, ht, hce]
  | some q =>
    obtain ⟨ba, bt⟩ := q
    cases hl : lookupStop st.1 nb with
    | none =>
      refine ⟨(updateStop st.1 nb (ba, bt), st.2 ++ [(ba, nb, bt)]), ?_⟩
      simp only [relaxStepD, ht, hce, hl]
    | some p =>
      obtain ⟨ea, et⟩ := p
      by_cases hlt : ba < ea
      · refine ⟨(updateStop st.1 nb (ba, bt), st.2 ++ [(ba, nb, bt)]), ?_⟩
        simp only [relaxStepD, ht, hce, hl, if_pos hlt]
      · refine ⟨st, ?_⟩
        simp only [relaxStepD, ht, hce, hl, if_neg hlt]

theorem relaxFoldD_ok {G : DiGraph} {ds ms cur cs tr : Nat} (hwk : WellKeyed G)
    (ns : List Nat) :
    ∀ st : List (Nat × Nat × Nat) × List (Nat × Nat × Nat),
    ∃ st', ns.foldl (relaxNeighborD G ds ms cur cs tr) (.ok st) = .ok st' := by
  induction ns with
  | nil => intro st; exact ⟨st, rfl⟩
  | cons nb ns ih =>
    intro st
    rw [List.foldl_cons]
    cases hd : edgeDataBetween G cs nb with
    | none =>
      rw [relaxNeighborD_of_none hd]
      exact ih st
    | some d =>
      obtain ⟨e, he, hed⟩ := edgeDataBetween_mem hd
      have hsome := hwk e he
      rw [hed] at hsome
      obtain ⟨⟨dp, ar⟩, ht⟩ := Option.isSome_iff_exists.mp hsome
      obtain ⟨st1, hst1⟩ := @relaxStepD_ok ds ms cur tr nb d dp ar st ht
      rw [relaxNeighborD_of_some hd, hst1]
      exact ih st1

theorem dijkstraLoopD_ok {G : DiGraph} {ds ms : Nat} (hwk : WellKeyed G) :
    ∀ (fuel : Nat) (e pq : List (Nat × Nat × Nat)) (ex : List Nat),
    ∃ final, dijkstraLoopD G ds ms fuel e pq ex = .ok final := by
  intro fuel
  induction fuel with
  | zero => intro e pq ex; exact ⟨e, rfl⟩
  | succ f ih =>
    intro e pq ex
    cases hpop : popMin pq with
    | none => exact ⟨e, by simp only [dijkstraLoopD, hpop]⟩
    | some q =>
      obtain ⟨⟨a, σ, t⟩, r⟩ := q
      by_cases hexm : σ ∈ ex
      · obtain ⟨final, hfin⟩ := ih e r ex
        refine ⟨final, ?_⟩
        simp only [dijkstraLoopD, hpop]
        rw [if_pos hexm]
        exact hfin
      · by_cases hbud : a - ds > ms
        · obtain ⟨final, hfin⟩ := ih e r (σ :: ex)
          refine ⟨final, ?_⟩
          simp only [dijkstraLoopD, hpop]
          rw [if_neg hexm, if_pos hbud]
          exact hfin
        · obtain ⟨st', hst'⟩ := @relaxFoldD_ok G ds ms a σ t hwk (neighborsD G σ) (e, r)
          obtain ⟨final, hfin⟩ := ih st'.1 st'.2 (σ :: ex)
          refine ⟨final, ?_⟩
          simp only [dijkstraLoopD, hpop]
          rw [if_neg hexm, if_neg hbud, hst']
          exact hfin

theorem dijkstraLoopD_empty_pq (G : DiGraph) (ds ms fuel : Nat)
    (e : List (Nat × Nat × Nat)) (ex : List Nat) :
    dijkstraLoopD G ds ms fuel e [] ex = .ok e := by
  cases fuel <;> simp [dijkstraLoopD, popMin]

theorem relaxStepD_budget0 {ds tr nb : Nat} {d : DiEdgeAttrs} {dp ar : Nat}
    {st : List (Nat × Nat × Nat) × List (Nat × Nat × Nat)}
    (ht : d.transit = some (dp, ar))
    (hp1 : d.transfer = true → 0 < d.duration)
    (hp2 : d.transfer = false → dp < ar) :
    relaxStepD ds 0 ds tr nb d st = .ok st := by
  have hc : considerEdge ds 0 ds tr none ⟨d.transfer, dp, ar, d.duration⟩ = none :=
    considerEdge_budget0 hp1 hp2
  simp only [relaxStepD, ht, hc]

theorem relaxFoldD_budget0 {G : DiGraph} {ds cs tr : Nat} (hwk : WellKeyed G)
    (hpos : PosDurDiGraph G) (ns : List Nat)
    (st : List (Nat × Nat × Nat) × List (Nat × Nat × Nat)) :
    ns.foldl (relaxNeighborD G ds 0 ds cs tr) (.ok st) = .ok st := by
  induction ns with
  | nil => rfl
  | cons nb ns ih =>
    rw [List.foldl_cons]
    cases hd : edgeDataBetween G cs nb with
    | none =>
      rw [relaxNeighborD_of_none hd]
      exact ih
    | some d =>
      obtain ⟨e, he, hed⟩ := edgeDataBetween_mem hd
      have hsome := hwk e he
      have hpe := hpos e he
      rw [hed] at hsome hpe
      obtain ⟨⟨dp, ar⟩, ht⟩ := Option.isSome_iff_exists.mp hsome
      have hp2 : d.transfer = false → dp < ar := by
        intro hf
        have hlt := hpe.2 hf
        rw [ht] at hlt
        simpa using hlt
      rw [relaxNeighborD_of_some hd, relaxStepD_budget0 ht hpe.1 hp2]
      exact ih

/-! ## The claims -/

/-- C1: the spec states that parallel edges between the same ordered stop
pair are retained as distinct edges, and the builder's own comment at the
`G.add_edge` call says "allow multiple edges for different trips/times" (and
`calculate_reachability` even carries a multi-edge branch); but
`build_graph_for_day_type` constructs `nx.DiGraph()`, whose `add_edge` keeps
a single edge per ordered pair and overwrites its attributes.  Two
single-segment trips A→B (trip 1 at 09:00→09:10, trip 2 at 10:00→10:10)
leave exactly one A→B edge, carrying only trip 2's attributes. -/
theorem c1_digraph_overwrites_parallel_edges :
    buildTransitAdjacency
      [ (1, [⟨0, none, some (9, 0, 0)⟩, ⟨1, some (9, 10, 0), none⟩])
      , (2, [⟨0, none, some (10, 0, 0)⟩, ⟨1, some (10, 10, 0), none⟩]) ] =
      [((0, 1), ⟨36000, 36600, 600, 2⟩)] ∧
    (buildTransitAdjacency
      [ (1, [⟨0, none, some (9, 0, 0)⟩, ⟨1, some (9, 10, 0), none⟩])
      , (2, [⟨0, none, some (10, 0, 0)⟩, ⟨1, some (10, 10, 0), none⟩]) ]).length = 1 :=
  ⟨rfl, rfl⟩

/-- C2: on the spec's concrete scenario (stops A=0, B=1, C=2, one segment
A→B departing 09:00:00 arriving 09:10:00, one segment B→C departing 09:20:00
arriving 09:30:00), the search from A at 09:00 with a 30-minute budget
returns exactly B at 10.0 minutes (100 tenths) with 0 transfers and C at
30.0 minutes (300 tenths) with 1 transfer (the 10-minute wait at B exceeds
the 120-second threshold); with a 15-minute budget it returns exactly B. -/
theorem c2_concrete_reachability :
    calculate_reachability demoGraphs 0 (9, 0) 30 "weekday" =
      .ok [⟨1, 100, 0⟩, ⟨2, 300, 1⟩] ∧
    calculate_reachability demoGraphs 0 (9, 0) 15 "weekday" =
      .ok [⟨1, 100, 0⟩] :=
  ⟨rfl, rfl⟩

/-- C4: for a well-formed graph (transit arrivals not before departures, as
the builder guarantees and the spec's data model requires), budgets b1 < b2,
and the same origin and departure time, every stop of the small-budget
result appears in the large-budget result with the same travel time (and in
fact the same record). -/
theorem c4_budget_monotone {graphs : List (String × Graph)} {day : String} {G : Graph}
    {o : Nat} {dep : Nat × Nat} {b1 b2 : Nat} {r1 r2 : List ResultEntry}
    (hg : graphs.lookup day = some G) (hwf : WFGraph G) (hb : b1 < b2)
    (h1 : calculate_reachability graphs o dep b1 day = .ok r1)
    (h2 : calculate_reachability graphs o dep b2 day = .ok r2) :
    ∀ e ∈ r1, ∃ e' ∈ r2, e'.stop_id = e.stop_id ∧
      e'.travel_time_tenths = e.travel_time_tenths := by
  by_cases ho : o ∈ G.nodes
  · simp only [calculate_reachability, hg, if_pos ho, Except.ok.injEq] at h1 h2
    subst h1
    subst h2
    intro e he
    have hinit : RunRel (time_to_seconds_hm dep) (b1 * 60)
        ([(o, time_to_seconds_hm dep, 0)], [(time_to_seconds_hm dep, o, 0)])
        ([(o, time_to_seconds_hm dep, 0)], [(time_to_seconds_hm dep, o, 0)]) := by
      refine ⟨fun s v h => h, fun s a t h _ => h, ?_, ?_, [], by simp, by simp⟩
      · intro s a t hv
        simp only [lookupStop] at hv
        by_cases hs : o = s
        · rw [if_pos hs] at hv
          simp only [Option.some.injEq, Prod.mk.injEq] at hv
          omega
        · rw [if_neg hs] at hv
          exact absurd hv (by simp)
      · intro x hx
        simp only [List.mem_singleton] at hx
        subst hx
        simp
    have hlock := dijkstraLoop_lockstep hwf
      (show b1 * 60 ≤ b2 * 60 by omega) (fuelBound G) []
      ([(o, time_to_seconds_hm dep, 0)], [(time_to_seconds_hm dep, o, 0)])
      ([(o, time_to_seconds_hm dep, 0)], [(time_to_seconds_hm dep, o, 0)]) hinit
    have hnodup1 : keysNodup (dijkstraLoop G (time_to_seconds_hm dep) (b1 * 60) (fuelBound G)
        ⟨[(o, time_to_seconds_hm dep, 0)], [(time_to_seconds_hm dep, o, 0)], []⟩) :=
      dijkstraLoop_keysNodup (fuelBound G) _ (by simp [keysNodup])
    rcases mem_buildResults.mp (sortResults_mem.mp he) with ⟨x, hxmem, hxne, hxe⟩
    obtain ⟨x1, x2⟩ := x
    have hlook1 : lookupStop (dijkstraLoop G (time_to_seconds_hm dep) (b1 * 60) (fuelBound G)
        ⟨[(o, time_to_seconds_hm dep, 0)], [(time_to_seconds_hm dep, o, 0)], []⟩) x1 = some x2 :=
      mem_lookupStop hnodup1 hxmem
    have hlook2 := hlock x1 x2 hlook1
    refine ⟨e, ?_, rfl, rfl⟩
    rw [hxe]
    exact sortResults_mem.mpr (mem_buildResults.mpr
      ⟨(x1, x2), lookupStop_mem hlook2, hxne, rfl⟩)
  · simp [calculate_reachability, hg, ho] at h1

/-- C4 witness: the A/B/C scenario with budgets 15 and 30 minutes, at the
single stop B of the 15-minute result. -/
theorem c4_budget_monotone_witness :
    ∃ e' ∈ [(⟨1, 100, 0⟩ : ResultEntry), ⟨2, 300, 1⟩],
      e'.stop_id = (1 : Nat) ∧ e'.travel_time_tenths = (100 : Nat) :=
  @c4_budget_monotone demoGraphs "weekday" demoGraph 0 (9, 0) 15 30
    [⟨1, 100, 0⟩] [⟨1, 100, 0⟩, ⟨2, 300, 1⟩]
    rfl (by unfold WFGraph; decide) (by decide) rfl rfl
    ⟨1, 100, 0⟩ (by decide)

/-- C5: exact canonical patterns classify into exactly their own variant
(Mon–Fri only into weekday, Saturday only into saturday, Sunday only into
sunday); any other rule is classified into every variant whose corresponding
day flag is set (weekday when any of Mon–Fri is set); a rule with all seven
flags false is classified into no variant. -/
theorem c5_service_classification :
    ∀ (m t w th f sa su : Bool),
      ((m = true ∧ t = true ∧ w = true ∧ th = true ∧ f = true ∧ sa = false ∧ su = false) →
        classifyService ⟨m, t, w, th, f, sa, su⟩ = ["weekday"]) ∧
      ((sa = true ∧ su = false ∧ m = false ∧ t = false ∧ w = false ∧ th = false ∧ f = false) →
        classifyService ⟨m, t, w, th, f, sa, su⟩ = ["saturday"]) ∧
      ((su = true ∧ sa = false ∧ m = false ∧ t = false ∧ w = false ∧ th = false ∧ f = false) →
        classifyService ⟨m, t, w, th, f, sa, su⟩ = ["sunday"]) ∧
      ((¬ (m = true ∧ t = true ∧ w = true ∧ th = true ∧ f = true ∧ sa = false ∧ su = false) ∧
        ¬ (sa = true ∧ su = false ∧ m = false ∧ t = false ∧ w = false ∧ th = false ∧ f = false) ∧
        ¬ (su = true ∧ sa = false ∧ m = false ∧ t = false ∧ w = false ∧ th = false ∧ f = false)) →
        (("weekday" ∈ classifyService ⟨m, t, w, th, f, sa, su⟩ ↔
          (m = true ∨ t = true ∨ w = true ∨ th = true ∨ f = true)) ∧
         ("saturday" ∈ classifyService ⟨m, t, w, th, f, sa, su⟩ ↔ sa = true) ∧
         ("sunday" ∈ classifyService ⟨m, t, w, th, f, sa, su⟩ ↔ su = true))) ∧
      ((m = false ∧ t = false ∧ w = false ∧ th = false ∧ f = false ∧ sa = false ∧ su = false) →
        classifyService ⟨m, t, w, th, f, sa, su⟩ = []) := by
  intro m t w th f sa su
  refine ⟨?_, ?_, ?_, ?_, ?_⟩ <;>
    cases m <;> cases t <;> cases w <;> cases th <;> cases f <;> cases sa <;> cases su <;>
      decide

/-- C5 witness: a rule active on Saturday and Sunday only classifies into
both the saturday and the sunday variant. -/
theorem c5_service_classification_witness :
    ("saturday" ∈ classifyService ⟨false, false, false, false, false, true, true⟩ ↔
      true = true) ∧
    ("sunday" ∈ classifyService ⟨false, false, false, false, false, true, true⟩ ↔
      true = true) :=
  ⟨((c5_service_classification false false false false false true true).2.2.2.1
      (by decide)).2.1,
   ((c5_service_classification false false false false false true true).2.2.2.1
      (by decide)).2.2⟩

/-- C6: the timeline runs one search and then emits one frame per elapsed
value step, 2*step, ... up to and including the largest multiple of step not
exceeding the budget (there are budget/step of them), each frame holding
exactly the stops of the full result whose travel time is within the elapsed
value, in the full result's order (filter preserves order); on the A/B/C
scenario with step 10 and budget 30 the frames are 10:{B}, 20:{B},
30:{B, C}. -/
theorem c6_timeline_frames :
    (∀ (graphs : List (String × Graph)) (o : Nat) (dep : Nat × Nat)
      (maxm step : Nat) (day : String) (r : List ResultEntry),
      0 < step →
      calculate_reachability graphs o dep maxm day = .ok r →
      calculate_reachability_timeline graphs o dep maxm step day =
        .ok ((List.range (maxm / step)).map (fun k =>
          ((k + 1) * step,
            r.filter (fun e => decide (e.travel_time_tenths ≤ ((k + 1) * step) * 10)))))) ∧
    calculate_reachability_timeline demoGraphs 0 (9, 0) 30 10 "weekday" =
      .ok [(10, [⟨1, 100, 0⟩]), (20, [⟨1, 100, 0⟩]),
           (30, [⟨1, 100, 0⟩, ⟨2, 300, 1⟩])] := by
  constructor
  · intro graphs o dep maxm step day r hstep hok
    unfold calculate_reachability_timeline
    rw [hok]
    simp only [Except.map]
    rw [pythonRange_step_mul hstep, List.map_map]
    rfl
  · rfl

/-- C6 witness: the general frame description instantiated on the A/B/C
scenario with step 10 and budget 30. -/
theorem c6_timeline_frames_witness :
    calculate_reachability_timeline demoGraphs 0 (9, 0) 30 10 "weekday" =
      .ok ((List.range (30 / 10)).map (fun k =>
        ((k + 1) * 10,
          [(⟨1, 100, 0⟩ : ResultEntry), ⟨2, 300, 1⟩].filter
            (fun e => decide (e.travel_time_tenths ≤ ((k + 1) * 10) * 10))))) :=
  c6_timeline_frames.1 demoGraphs 0 (9, 0) 30 10 "weekday"
    [⟨1, 100, 0⟩, ⟨2, 300, 1⟩] (by decide) rfl

/-- C7 counterexample: the builder's `time_to_seconds` accepts times past 24
hours ("may exceed 24 hours", its own docstring), and for a departure of
"50:00:00" (180000 s) with raw arrival "00:00:00" the +24h correction still
leaves arrival (86400) before departure, so the stored duration is negative:
the claim's "duration ... is >= 0" fails on such a pair. -/
theorem c7_counterexample_negative_duration :
    time_to_seconds (some (50, 0, 0)) = 180000 ∧
    (buildSegmentAttrs 1 ⟨0, none, some (50, 0, 0)⟩ ⟨1, some (0, 0, 0), none⟩).duration =
      -93600 ∧
    (buildSegmentAttrs 1 ⟨0, none, some (50, 0, 0)⟩ ⟨1, some (0, 0, 0), none⟩).duration < 0 :=
  ⟨rfl, rfl, by decide⟩

/-- C7 (amended): for every consecutive visit pair whose departure exceeds
the raw arrival by at most 24 hours (always true within one service day),
the stored arrival gets +24h exactly when the raw arrival is smaller than
the departure, the stored duration is arrival minus departure, and it is
nonnegative. -/
theorem c7_midnight_correction (trip_id : Nat) (v w : StopVisit)
    (h : time_to_seconds v.departure_time ≤ time_to_seconds w.arrival_time + 24 * 3600) :
    ((buildSegmentAttrs trip_id v w).arrival_time =
      (if time_to_seconds w.arrival_time < time_to_seconds v.departure_time
       then time_to_seconds w.arrival_time + 24 * 3600
       else time_to_seconds w.arrival_time)) ∧
    (buildSegmentAttrs trip_id v w).duration =
      ((buildSegmentAttrs trip_id v w).arrival_time : Int) -
        ((buildSegmentAttrs trip_id v w).departure_time : Int) ∧
    0 ≤ (buildSegmentAttrs trip_id v w).duration := by
  refine ⟨rfl, rfl, ?_⟩
  unfold buildSegmentAttrs
  dsimp only
  split_ifs with hlt
  · omega
  · omega

/-- C7 witness: the spec's "23:50:00" departure with raw "00:10:00" arrival
yields arrival = departure + 1200 seconds and a nonnegative duration. -/
theorem c7_midnight_correction_witness :
    time_to_seconds (some (23, 50, 0)) ≤ time_to_seconds (some (0, 10, 0)) + 24 * 3600 ∧
    (buildSegmentAttrs 1 ⟨0, none, some (23, 50, 0)⟩ ⟨1, some (0, 10, 0), none⟩).arrival_time =
      85800 + 1200 ∧
    0 ≤ (buildSegmentAttrs 1 ⟨0, none, some (23, 50, 0)⟩ ⟨1, some (0, 10, 0), none⟩).duration :=
  ⟨by decide, by decide,
   (c7_midnight_correction 1 ⟨0, none, some (23, 50, 0)⟩ ⟨1, some (0, 10, 0), none⟩
     (by decide)).2.2⟩

/-- C9: the embedded search is a pure function, so two runs on identical
inputs are trivially equal; the only freedom the Python implementation's
`heapq` has is the internal arrangement of the pending entries, and the
search result is invariant under any permutation of the queue: pops always
return the least `(arrival, stop, transfers)` tuple, so there is no hidden
randomness in tie-breaking. -/
theorem c9_deterministic (graphs : List (String × Graph)) (o : Nat) (dep : Nat × Nat)
    (b : Nat) (day : String) :
    calculate_reachability graphs o dep b day = calculate_reachability graphs o dep b day ∧
    (∀ (G : Graph) (ds ms fuel : Nat) (e : List (Nat × Nat × Nat)) (ex : List Nat)
      (p p' : List (Nat × Nat × Nat)), p.Perm p' →
      dijkstraLoop G ds ms fuel ⟨e, p, ex⟩ = dijkstraLoop G ds ms fuel ⟨e, p', ex⟩) :=
  ⟨rfl, fun _ _ _ fuel e ex p p' hp => dijkstraLoop_pq_perm fuel e ex p p' hp⟩

/-- C9 witness: a two-entry queue and its reversal give the same result. -/
theorem c9_deterministic_witness :
    dijkstraLoop demoGraph 32400 1800 5 ⟨[], [(1, 2, 3), (4, 5, 6)], []⟩ =
      dijkstraLoop demoGraph 32400 1800 5 ⟨[], [(4, 5, 6), (1, 2, 3)], []⟩ :=
  (c9_deterministic [] 0 (0, 0) 0 "").2 demoGraph 32400 1800 5 [] []
    [(1, 2, 3), (4, 5, 6)] [(4, 5, 6), (1, 2, 3)] (by decide)

/-- C10: the builder's `time_to_seconds` returns 0 for a missing (NaN) clock
string, so a visit with an absent arrival timestamp is treated as 00:00:00:
the edge is still produced (here the midnight correction then makes the
stored arrival 86400 = 24h and the duration 54000), not skipped. -/
theorem c10_nan_time_is_midnight :
    time_to_seconds none = 0 ∧
    buildTransitAdjacency [(7, [⟨0, none, some (9, 0, 0)⟩, ⟨1, none, none⟩])] =
      [((0, 1), ⟨32400, 86400, 54000, 7⟩)] :=
  ⟨rfl, rfl⟩

/-- C3 counterexample: the claim says the engine also raises on a
non-positive budget, but `calculate_reachability` performs no budget
validation: with a known variant and an origin in the graph, a budget of 0
minutes (non-positive) returns normally, not an error. -/
theorem c3_counterexample_budget_not_validated :
    calculate_reachability_digraph demoGraphsD 0 (8, 30) 0 "weekday" = .ok [] := rfl

/-- C3 (amended): over the graphs the builder produces, the errors of
`calculate_reachability` are: for graphs whose attribute dictionaries all
carry the departure_time key, an error is raised exactly when the requested
day_type has no graph (InvalidVariant) or the origin is not a node of the
selected graph (StopNotFound) — the budget is never validated; when the
search instead meets a transfer-only dictionary (no departure_time, as
`nx.DiGraph` stores a bare transfer rule), it crashes with AttributeError
(reachability.py lines 114 and 121) even for a known variant, a present
origin and a positive budget. -/
theorem c3_errors_iff_variant_or_stop :
    (∀ (graphs : List (String × DiGraph)) (o : Nat) (dep : Nat × Nat) (b : Nat)
      (day : String), (∀ G, graphs.lookup day = some G → WellKeyed G) →
      ((∃ msg, calculate_reachability_digraph graphs o dep b day = .error msg) ↔
        (graphs.lookup day = none ∨
          ∃ G, graphs.lookup day = some G ∧ o ∉ G.nodes))) ∧
    calculate_reachability_digraph transferOnlyGraphsD 0 (9, 0) 30 "weekday" =
      .error "AttributeError" := by
  constructor
  · intro graphs o dep b day hwk
    cases hg : graphs.lookup day with
    | none => simp [calculate_reachability_digraph, hg]
    | some G =>
      have hwkG := hwk G hg
      by_cases ho : o ∈ G.nodes
      · obtain ⟨final, hfin⟩ := @dijkstraLoopD_ok G (time_to_seconds_hm dep) (b * 60)
          hwkG (fuelBoundD G)
          [(o, time_to_seconds_hm dep, 0)] [(time_to_seconds_hm dep, o, 0)] []
        simp [calculate_reachability_digraph, hg, ho, hfin]
      · simp [calculate_reachability_digraph, hg, ho]
  · rfl

/-- C3 witness: the error characterization instantiated on the well-keyed
A/B/C DiGraph at an origin that is not one of its nodes. -/
theorem c3_errors_iff_variant_or_stop_witness :
    (∃ msg, calculate_reachability_digraph demoGraphsD 5 (9, 0) 30 "weekday" =
      .error msg) ↔
      (List.lookup "weekday" demoGraphsD = none ∨
        ∃ G, List.lookup "weekday" demoGraphsD = some G ∧ 5 ∉ G.nodes) :=
  c3_errors_iff_variant_or_stop.1 demoGraphsD 5 (9, 0) 30 "weekday"
    (fun G hG => by
      have h3 : (some demoGraphD : Option DiGraph) = some G := hG
      have h2 : demoGraphD = G := Option.some.inj h3
      subst h2
      unfold WellKeyed
      decide)

/-- C8 counterexample: with a zero-duration transit edge departing exactly
at the departure time (A→B at 09:00:00 arriving 09:00:00), a zero-minute
budget still reaches B, so the zero-budget result is not always empty. -/
theorem c8_counterexample_zero_budget_nonempty :
    calculate_reachability_digraph zeroDurGraphsD 0 (9, 0) 0 "weekday" =
      .ok [⟨1, 0, 0⟩] ∧
    calculate_reachability_digraph zeroDurGraphsD 0 (9, 0) 0 "weekday" ≠ .ok [] := by
  refine ⟨rfl, ?_⟩
  intro h
  rw [show calculate_reachability_digraph zeroDurGraphsD 0 (9, 0) 0 "weekday" =
    .ok [⟨1, 0, 0⟩] from rfl] at h
  simp at h

/-- C8 (amended): on a builder graph whose attribute dictionaries all carry
the departure_time key (a transfer-only pair would instead crash the search
with AttributeError) and whose edges all take strictly positive time, a
zero-minute budget reaches no stop beyond the origin: the result is
empty. -/
theorem c8_zero_budget_empty {graphs : List (String × DiGraph)} {day : String}
    {G : DiGraph} {o : Nat} {dep : Nat × Nat}
    (hg : graphs.lookup day = some G) (ho : o ∈ G.nodes)
    (hwk : WellKeyed G) (hpos : PosDurDiGraph G) :
    calculate_reachability_digraph graphs o dep 0 day = .ok [] := by
  simp only [calculate_reachability_digraph, hg, if_pos ho]
  rw [show fuelBoundD G = (G.edges.length + 1) * (G.edges.length + 1) + 1 from rfl]
  have hpop1 : popMin [(time_to_seconds_hm dep, o, 0)] =
      some ((time_to_seconds_hm dep, o, 0), []) := rfl
  simp only [dijkstraLoopD, hpop1, Nat.zero_mul]
  rw [if_neg (List.not_mem_nil o)]
  have hcond : ¬ (time_to_seconds_hm dep - time_to_seconds_hm dep > 0) := by omega
  rw [if_neg hcond]
  rw [relaxFoldD_budget0 hwk hpos (neighborsD G o) ([(o, time_to_seconds_hm dep, 0)], [])]
  simp [popMin, buildResults, sortResults, List.insertionSort]

/-- C8 witness: the A/B/C DiGraph is well-keyed with positive durations,
and a zero budget from A returns the empty list. -/
theorem c8_zero_budget_empty_witness :
    calculate_reachability_digraph demoGraphsD 0 (9, 0) 0 "weekday" = .ok [] :=
  c8_zero_budget_empty rfl (by decide) (by unfold WellKeyed; decide)
    (by unfold PosDurDiGraph; decide)

end MVV
